import Mathlib

/-!
Verification of `src/hands-on-data-struct-algorithms/src/lists.rs`.

The Rust code builds linked lists from `Rc<RefCell<Node>>` values.  We model
the heap of reference-counted nodes as an arena: a `List Node` in which a
node is addressed by its position (a `Nat` id).  `Option Nat` plays the role
of `Link = Option<Rc<RefCell<Node>>>`; allocation (`Rc::new`) pushes a node
at the end of the arena and node storage is never reused, so ids are stable.
A node that the program has destroyed simply stays in the arena as an
unreferenced entry — this does not affect any link field of live nodes.

The strong reference count of a node equals the number of link slots that
hold a clone of its `Rc`: the list's `head` and `tail` fields and every
node's `next`/`prev` fields (plus any local variable currently holding it).
`refCount` counts exactly those structural slots, so at the moment
`BetterTransactionLog::pop` calls `Rc::try_unwrap(head)` the strong count of
the popped node is `refCount s i + 1` (the `+ 1` is the local `head`
binding), and `try_unwrap` succeeds iff `refCount s i = 0`.  `pop` is
embedded as an `Except Unit` computation whose `.error ()` result is the
`expect` panic branch of the source.

The source's `length` field is a `u64`; it is modelled as `Nat`.  Overflow
of the `u64` would require `2 ^ 64` simultaneously live heap nodes, which
no execution of the source can produce, so the `+ 1` / `- 1` arithmetic
below coincides with the source on every state the program can reach.
-/

namespace Lists

/-- Rust `struct Node { value: String, next: Link, prev: Link }`, with links
as arena indices. -/
structure Node where
  value : String
  next : Option Nat
  prev : Option Nat
deriving DecidableEq

/-- Default node used only to totalize arena lookup; out-of-bounds lookups
never happen on the states the program reaches. -/
def defaultNode : Node := ⟨"", none, none⟩

/-- Arena lookup: the node stored at id `i`. -/
def getNode (ns : List Node) (i : Nat) : Node :=
  match ns[i]? with
  | some n => n
  | none => defaultNode

/-- Write the `next` field of node `i` (a `RefCell` mutation in the source). -/
def setNext (ns : List Node) (i : Nat) (v : Option Nat) : List Node :=
  ns.set i { getNode ns i with next := v }

/-- Write the `prev` field of node `i` (a `RefCell` mutation in the source). -/
def setPrev (ns : List Node) (i : Nat) (v : Option Nat) : List Node :=
  ns.set i { getNode ns i with prev := v }

/-- Rust `Node::new(value)`: a fresh node with empty links. -/
def Node.new (value : String) : Node :=
  { value := value, next := none, prev := none }

/-- Rust `struct BetterTransactionLog { head: Link, tail: Link, length: u64 }`
together with the arena of nodes it owns. -/
structure BetterTransactionLog where
  nodes : List Node
  head : Option Nat
  tail : Option Nat
  length : Nat
deriving DecidableEq

/-- Rust `struct TransactionLog { head: Link, tail: Link, length: u64 }`
(the singly linked variant; its `append`/`pop` never touch `prev`). -/
structure TransactionLog where
  nodes : List Node
  head : Option Nat
  tail : Option Nat
  length : Nat
deriving DecidableEq

/-- Number of structural link slots (`head`, `tail`, every node's
`next`/`prev`) of a `BetterTransactionLog` holding node `i`: the strong
count of node `i`'s `Rc` minus the local variables currently holding it. -/
def linkCount (l : Option Nat) (i : Nat) : Nat :=
  if l = some i then 1 else 0

/-- Structural reference count of node `i` in a `BetterTransactionLog`. -/
def refCount (s : BetterTransactionLog) (i : Nat) : Nat :=
  linkCount s.head i + linkCount s.tail i +
    ((List.range s.nodes.length).map
      (fun k => linkCount (getNode s.nodes k).next i +
        linkCount (getNode s.nodes k).prev i)).sum

/-- Structural reference count of node `i` in a `TransactionLog`. -/
def refCountTL (s : TransactionLog) (i : Nat) : Nat :=
  linkCount s.head i + linkCount s.tail i +
    ((List.range s.nodes.length).map
      (fun k => linkCount (getNode s.nodes k).next i +
        linkCount (getNode s.nodes k).prev i)).sum

/-- Rust `BetterTransactionLog::new_empty()`. -/
def BetterTransactionLog.new_empty : BetterTransactionLog :=
  { nodes := [], head := none, tail := none, length := 0 }

/-- Rust `BetterTransactionLog::append(value)`: allocate `Node::new(value)`;
if `tail` is empty the node becomes the head, otherwise the old tail's
`next` is set to the node and the node's `prev` to the old tail; the node
becomes the new tail and `length` is incremented. -/
def BetterTransactionLog.append (s : BetterTransactionLog) (value : String)
    : BetterTransactionLog :=
  let nodeId := s.nodes.length
  let ns := s.nodes ++ [Node.new value]
  match s.tail with
  | none =>
      { nodes := ns, head := some nodeId, tail := some nodeId,
        length := s.length + 1 }
  | some tailId =>
      { nodes := setPrev (setNext ns tailId (some nodeId)) nodeId (some tailId),
        head := s.head, tail := some nodeId, length := s.length + 1 }

/-- The unlinking phase of `BetterTransactionLog::pop`, up to (but not
including) `Rc::try_unwrap`: take `self.head`; take the removed node's
`next`; if a successor exists, clear its `prev` and make it the new head,
otherwise take `self.tail`; decrement `length`.  Returns the removed node's
id and the state at the moment of `Rc::try_unwrap`, or `none` when the list
was empty. -/
def BetterTransactionLog.popDetach (s : BetterTransactionLog)
    : Option (Nat × BetterTransactionLog) :=
  match s.head with
  | none => none
  | some i =>
      let ns1 := setNext s.nodes i none
      match (getNode s.nodes i).next with
      | some j =>
          some (i, { nodes := setPrev ns1 j none, head := some j,
                     tail := s.tail, length := s.length - 1 })
      | none =>
          some (i, { nodes := ns1, head := none, tail := none,
                     length := s.length - 1 })

/-- Rust `BetterTransactionLog::pop()`: when the list is empty the result is
`none`; otherwise the head node is unlinked and its value reclaimed by
`Rc::try_unwrap(head).expect(..)`, which panics — modelled as `.error ()` —
unless the local binding is the only remaining owner, i.e. unless
`refCount s' i = 0`. -/
def BetterTransactionLog.pop (s : BetterTransactionLog)
    : Except Unit (Option String × BetterTransactionLog) :=
  match s.popDetach with
  | none => .ok (none, s)
  | some (i, s') =>
      if refCount s' i = 0 then
        .ok (some (getNode s'.nodes i).value, s')
      else
        .error ()

/-- Rust `TransactionLog::new_empty()`. -/
def TransactionLog.new_empty : TransactionLog :=
  { nodes := [], head := none, tail := none, length := 0 }

/-- Rust `TransactionLog::append(value)`: as the doubly linked variant but
the new node's `prev` is never set. -/
def TransactionLog.append (s : TransactionLog) (value : String)
    : TransactionLog :=
  let nodeId := s.nodes.length
  let ns := s.nodes ++ [Node.new value]
  match s.tail with
  | none =>
      { nodes := ns, head := some nodeId, tail := some nodeId,
        length := s.length + 1 }
  | some tailId =>
      { nodes := setNext ns tailId (some nodeId),
        head := s.head, tail := some nodeId, length := s.length + 1 }

/-- The unlinking phase of `TransactionLog::pop`: as the doubly linked
variant except that the successor's `prev` is not cleared (it was never
set). -/
def TransactionLog.popDetach (s : TransactionLog)
    : Option (Nat × TransactionLog) :=
  match s.head with
  | none => none
  | some i =>
      let ns1 := setNext s.nodes i none
      match (getNode s.nodes i).next with
      | some j =>
          some (i, { nodes := ns1, head := some j,
                     tail := s.tail, length := s.length - 1 })
      | none =>
          some (i, { nodes := ns1, head := none, tail := none,
                     length := s.length - 1 })

/-- Rust `TransactionLog::pop()`, with the `expect` panic branch modelled as
`.error ()`. -/
def TransactionLog.pop (s : TransactionLog)
    : Except Unit (Option String × TransactionLog) :=
  match s.popDetach with
  | none => .ok (none, s)
  | some (i, s') =>
      if refCountTL s' i = 0 then
        .ok (some (getNode s'.nodes i).value, s')
      else
        .error ()

/-- States of the doubly linked log produced by some sequence of `append`
and `pop` operations from the empty log (a `pop` that panics produces no
state). -/
inductive BetterTransactionLog.Reachable : BetterTransactionLog → Prop where
  | empty : Reachable BetterTransactionLog.new_empty
  | append (s : BetterTransactionLog) (v : String) :
      Reachable s → Reachable (s.append v)
  | pop (s : BetterTransactionLog) (v : Option String)
      (s' : BetterTransactionLog) :
      Reachable s → s.pop = .ok (v, s') → Reachable s'

/-- States of the singly linked log produced by some sequence of `append`
and `pop` operations from the empty log. -/
inductive TransactionLog.Reachable : TransactionLog → Prop where
  | empty : Reachable TransactionLog.new_empty
  | append (s : TransactionLog) (v : String) :
      Reachable s → Reachable (s.append v)
  | pop (s : TransactionLog) (v : Option String) (s' : TransactionLog) :
      Reachable s → s.pop = .ok (v, s') → Reachable s'

/-- The `next` fields stitch the ids `is` into a chain whose last node has
empty `next`. -/
def ChainNext (ns : List Node) : List Nat → Prop
  | [] => True
  | [i] => (getNode ns i).next = none
  | i :: j :: rest => (getNode ns i).next = some j ∧ ChainNext ns (j :: rest)

/-- The `prev` fields stitch the ids `is` into a chain backwards: the first
node's `prev` is `p`, every later node's `prev` is its predecessor. -/
def ChainPrev (ns : List Node) : Option Nat → List Nat → Prop
  | _, [] => True
  | p, i :: rest => (getNode ns i).prev = p ∧ ChainPrev ns (some i) rest

/-- The shape invariant of a `BetterTransactionLog` whose live nodes, from
head to tail, are the ids `is`: `head`/`tail`/`length` agree with `is`, the
ids are distinct and in bounds, the `next` and `prev` fields stitch them
into a doubly linked chain, and every arena entry outside the chain (a node
the program has already destroyed) carries no links. -/
structure BetterTransactionLog.Shape (s : BetterTransactionLog)
    (is : List Nat) : Prop where
  head_eq : s.head = is.head?
  tail_eq : s.tail = is.getLast?
  len_eq : s.length = is.length
  nodup : is.Nodup
  bound : ∀ k ∈ is, k < s.nodes.length
  chain_next : ChainNext s.nodes is
  chain_prev : ChainPrev s.nodes none is
  clean : ∀ k < s.nodes.length, k ∉ is →
    (getNode s.nodes k).next = none ∧ (getNode s.nodes k).prev = none

/-- Shape invariant of the singly linked `TransactionLog`: as for the
doubly linked log, except that no node ever has a `prev` link. -/
structure TransactionLog.Shape (s : TransactionLog) (is : List Nat) : Prop where
  head_eq : s.head = is.head?
  tail_eq : s.tail = is.getLast?
  len_eq : s.length = is.length
  nodup : is.Nodup
  bound : ∀ k ∈ is, k < s.nodes.length
  chain_next : ChainNext s.nodes is
  prev_none : ∀ k < s.nodes.length, (getNode s.nodes k).prev = none
  clean : ∀ k < s.nodes.length, k ∉ is → (getNode s.nodes k).next = none

/-- Values stored along a chain of ids. -/
def chainValues (ns : List Node) (is : List Nat) : List String :=
  is.map fun k => (getNode ns k).value

/-- Append each value of `vs` in order (left to right). -/
def BetterTransactionLog.appendAll : BetterTransactionLog → List String
    → BetterTransactionLog
  | s, [] => s
  | s, v :: vs => (s.append v).appendAll vs

/-- Append each value of `vs` in order (left to right). -/
def TransactionLog.appendAll : TransactionLog → List String → TransactionLog
  | s, [] => s
  | s, v :: vs => (s.append v).appendAll vs

/-- Pop `n` times, collecting the returned values (stopping early if a pop
returns `none`, propagating a panic). -/
def BetterTransactionLog.popN : BetterTransactionLog → Nat
    → Except Unit (List String × BetterTransactionLog)
  | s, 0 => .ok ([], s)
  | s, n + 1 =>
      match s.pop with
      | .ok (some v, s') =>
          match s'.popN n with
          | .ok (vs, s'') => .ok (v :: vs, s'')
          | .error e => .error e
      | .ok (none, s') => .ok ([], s')
      | .error e => .error e

/-- Pop `n` times, collecting the returned values. -/
def TransactionLog.popN : TransactionLog → Nat
    → Except Unit (List String × TransactionLog)
  | s, 0 => .ok ([], s)
  | s, n + 1 =>
      match s.pop with
      | .ok (some v, s') =>
          match s'.popN n with
          | .ok (vs, s'') => .ok (v :: vs, s'')
          | .error e => .error e
      | .ok (none, s') => .ok ([], s')
      | .error e => .error e

/-- Follow one `next` link from an optional cursor. -/
def nextStep (ns : List Node) (o : Option Nat) : Option Nat :=
  match o with
  | none => none
  | some i => (getNode ns i).next

/-- Follow one `prev` link from an optional cursor. -/
def prevStep (ns : List Node) (o : Option Nat) : Option Nat :=
  match o with
  | none => none
  | some i => (getNode ns i).prev

/-- Follow `next` links `k` times. -/
def walkNext (ns : List Node) : Nat → Option Nat → Option Nat
  | 0, o => o
  | k + 1, o => walkNext ns k (nextStep ns o)

/-- Follow `prev` links `k` times. -/
def walkPrev (ns : List Node) : Nat → Option Nat → Option Nat
  | 0, o => o
  | k + 1, o => walkPrev ns k (prevStep ns o)

/-- The structural invariant of the doubly linked list state, stated purely
in terms of the observable fields: the `length`/emptiness correspondences,
the head-to-tail walk along `next` and tail-to-head walk along `prev` (in
exactly `length - 1` link-followings, no fewer, and falling off the end one
step later), and reciprocity of adjacent `next`/`prev` references. -/
def StructInv (s : BetterTransactionLog) : Prop :=
  (s.length = 0 ↔ s.head = none ∧ s.tail = none) ∧
  (s.length = 1 ↔ s.head ≠ none ∧ s.head = s.tail) ∧
  (1 ≤ s.length →
    walkNext s.nodes (s.length - 1) s.head = s.tail ∧
    walkNext s.nodes s.length s.head = none ∧
    (∀ k, k < s.length - 1 → walkNext s.nodes k s.head ≠ s.tail) ∧
    walkPrev s.nodes (s.length - 1) s.tail = s.head ∧
    walkPrev s.nodes s.length s.tail = none ∧
    (∀ k, k < s.length - 1 → walkPrev s.nodes k s.tail ≠ s.head)) ∧
  (∀ i j, i < s.nodes.length → j < s.nodes.length →
    ((getNode s.nodes i).next = some j ↔ (getNode s.nodes j).prev = some i))

/-- Rust `struct ListIteratorTracker { current: Link }`.  The tracker's
`current` is an `Rc` clone into the shared heap of nodes; the `nodes` field
is that shared heap, threaded through so that reads and writes of the
iterator are recorded against it. -/
structure ListIteratorTracker where
  nodes : List Node
  current : Option Nat

/-- Rust `ListIteratorTracker::new(start_at)`. -/
def ListIteratorTracker.new (ns : List Node) (start_at : Option Nat)
    : ListIteratorTracker :=
  { nodes := ns, current := start_at }

/-- Rust `Iterator::next` for `ListIteratorTracker`: clone the value out of
the current node, advance the cursor to a clone of its `next` link.  The
heap is returned unchanged — the source only takes an immutable borrow. -/
def ListIteratorTracker.next (it : ListIteratorTracker)
    : Option String × ListIteratorTracker :=
  match it.current with
  | some i =>
      (some (getNode it.nodes i).value,
        { nodes := it.nodes, current := (getNode it.nodes i).next })
  | none => (none, { nodes := it.nodes, current := none })

/-- Rust `DoubleEndedIterator::next_back` for `ListIteratorTracker`: as
`next` but following the `prev` link. -/
def ListIteratorTracker.next_back (it : ListIteratorTracker)
    : Option String × ListIteratorTracker :=
  match it.current with
  | some i =>
      (some (getNode it.nodes i).value,
        { nodes := it.nodes, current := (getNode it.nodes i).prev })
  | none => (none, { nodes := it.nodes, current := none })

/-- Rust `IntoIterator for BetterTransactionLog`: iterate from `head`. -/
def BetterTransactionLog.intoIter (s : BetterTransactionLog)
    : ListIteratorTracker :=
  { nodes := s.nodes, current := s.head }

/-- Apply `next` to the tracker `k` times, keeping only the tracker. -/
def ListIteratorTracker.stepFwdN : ListIteratorTracker → Nat
    → ListIteratorTracker
  | it, 0 => it
  | it, k + 1 => (it.next).2.stepFwdN k

/-- Apply `next_back` to the tracker `k` times, keeping only the tracker. -/
def ListIteratorTracker.stepBwdN : ListIteratorTracker → Nat
    → ListIteratorTracker
  | it, 0 => it
  | it, k + 1 => (it.next_back).2.stepBwdN k

/-- Collect up to `fuel` values by repeated `next`, stopping at `none`. -/
def collectFwd : ListIteratorTracker → Nat → List String
  | _, 0 => []
  | it, k + 1 =>
      match it.next with
      | (some v, it') => v :: collectFwd it' k
      | (none, _) => []

/-- Collect up to `fuel` values by repeated `next_back`, stopping at
`none`. -/
def collectBwd : ListIteratorTracker → Nat → List String
  | _, 0 => []
  | it, k + 1 =>
      match it.next_back with
      | (some v, it') => v :: collectBwd it' k
      | (none, _) => []

/-- Rust `Drop for TransactionLog`: `while self.pop().is_some() {}`, as a
fuel-bounded loop (`.ok` is reached exactly when the loop exits within
`fuel` iterations; a panic inside `pop` propagates as `.error`). -/
def TransactionLog.dropLoop : TransactionLog → Nat → Except Unit TransactionLog
  | s, 0 => .ok s
  | s, fuel + 1 =>
      match s.pop with
      | .ok (some _, s') => s'.dropLoop fuel
      | .ok (none, s') => .ok s'
      | .error e => .error e

theorem getNode_set_self (ns : List Node) (i : Nat) (n : Node)
    (h : i < ns.length) : getNode (ns.set i n) i = n := by
  simp [getNode, List.getElem?_set_self h]

theorem getNode_set_ne (ns : List Node) (i j : Nat) (n : Node)
    (h : i ≠ j) : getNode (ns.set i n) j = getNode ns j := by
  simp [getNode, List.getElem?_set_ne h]

theorem getNode_append_lt (ns ms : List Node) (i : Nat)
    (h : i < ns.length) : getNode (ns ++ ms) i = getNode ns i := by
  simp [getNode, List.getElem?_append_left h]

theorem getNode_concat_self (ns : List Node) (n : Node) :
    getNode (ns ++ [n]) ns.length = n := by
  simp [getNode, List.getElem?_concat_length]

theorem length_setNext (ns : List Node) (i : Nat) (v : Option Nat) :
    (setNext ns i v).length = ns.length := by
  simp [setNext]

theorem length_setPrev (ns : List Node) (i : Nat) (v : Option Nat) :
    (setPrev ns i v).length = ns.length := by
  simp [setPrev]

theorem getNode_setNext_self (ns : List Node) (i : Nat) (v : Option Nat)
    (h : i < ns.length) :
    getNode (setNext ns i v) i = { getNode ns i with next := v } := by
  simp [setNext, getNode_set_self _ _ _ h]

theorem getNode_setNext_ne (ns : List Node) (i j : Nat) (v : Option Nat)
    (h : i ≠ j) : getNode (setNext ns i v) j = getNode ns j := by
  simp [setNext, getNode_set_ne _ _ _ _ h]

theorem getNode_setPrev_self (ns : List Node) (i : Nat) (v : Option Nat)
    (h : i < ns.length) :
    getNode (setPrev ns i v) i = { getNode ns i with prev := v } := by
  simp [setPrev, getNode_set_self _ _ _ h]

theorem getNode_setPrev_ne (ns : List Node) (i j : Nat) (v : Option Nat)
    (h : i ≠ j) : getNode (setPrev ns i v) j = getNode ns j := by
  simp [setPrev, getNode_set_ne _ _ _ _ h]

theorem value_setNext (ns : List Node) (i k : Nat) (v : Option Nat) :
    (getNode (setNext ns i v) k).value = (getNode ns k).value := by
  by_cases h : i = k
  · subst h
    by_cases hk : i < ns.length
    · rw [getNode_setNext_self _ _ _ hk]
    · rw [setNext, List.set_eq_of_length_le (Nat.le_of_not_lt hk)]
  · rw [getNode_setNext_ne _ _ _ _ h]

theorem value_setPrev (ns : List Node) (i k : Nat) (v : Option Nat) :
    (getNode (setPrev ns i v) k).value = (getNode ns k).value := by
  by_cases h : i = k
  · subst h
    by_cases hk : i < ns.length
    · rw [getNode_setPrev_self _ _ _ hk]
    · rw [setPrev, List.set_eq_of_length_le (Nat.le_of_not_lt hk)]
  · rw [getNode_setPrev_ne _ _ _ _ h]

theorem prev_setNext (ns : List Node) (i k : Nat) (v : Option Nat) :
    (getNode (setNext ns i v) k).prev = (getNode ns k).prev := by
  by_cases h : i = k
  · subst h
    by_cases hk : i < ns.length
    · rw [getNode_setNext_self _ _ _ hk]
    · rw [setNext, List.set_eq_of_length_le (Nat.le_of_not_lt hk)]
  · rw [getNode_setNext_ne _ _ _ _ h]

theorem next_setPrev (ns : List Node) (i k : Nat) (v : Option Nat) :
    (getNode (setPrev ns i v) k).next = (getNode ns k).next := by
  by_cases h : i = k
  · subst h
    by_cases hk : i < ns.length
    · rw [getNode_setPrev_self _ _ _ hk]
    · rw [setPrev, List.set_eq_of_length_le (Nat.le_of_not_lt hk)]
  · rw [getNode_setPrev_ne _ _ _ _ h]

theorem chainNext_congr (ns ns' : List Node) :
    ∀ is : List Nat,
      (∀ k ∈ is, (getNode ns' k).next = (getNode ns k).next) →
      ChainNext ns is → ChainNext ns' is
  | [] => fun _ _ => trivial
  | [i] => fun h hc => by
      simp only [ChainNext] at hc ⊢
      rw [h i (by simp)]
      exact hc
  | i :: j :: rest => fun h hc => by
      simp only [ChainNext] at hc ⊢
      refine ⟨by rw [h i (by simp)]; exact hc.1, ?_⟩
      exact chainNext_congr ns ns' (j :: rest)
        (fun k hk => h k (List.mem_cons_of_mem i hk)) hc.2

theorem chainPrev_congr (ns ns' : List Node) :
    ∀ (is : List Nat) (p : Option Nat),
      (∀ k ∈ is, (getNode ns' k).prev = (getNode ns k).prev) →
      ChainPrev ns p is → ChainPrev ns' p is
  | [] => fun _ _ _ => trivial
  | i :: rest => fun p h hc => by
      simp only [ChainPrev] at hc ⊢
      refine ⟨by rw [h i (by simp)]; exact hc.1, ?_⟩
      exact chainPrev_congr ns ns' rest (some i)
        (fun k hk => h k (List.mem_cons_of_mem i hk)) hc.2

theorem chainNext_snoc (ns ns' : List Node) (t m : Nat) :
    ∀ is : List Nat, is.getLast? = some t → is.Nodup →
      (∀ k ∈ is, k ≠ t → (getNode ns' k).next = (getNode ns k).next) →
      (getNode ns' t).next = some m →
      (getNode ns' m).next = none →
      ChainNext ns is → ChainNext ns' (is ++ [m])
  | [] => fun hlast _ _ _ _ _ => by simp at hlast
  | [i] => fun hlast _ _ ht hm _ => by
      simp only [List.getLast?_singleton, Option.some_inj] at hlast
      subst hlast
      exact ⟨ht, hm⟩
  | i :: j :: rest => fun hlast hnd h ht hm hc => by
      have htmem : t ∈ j :: rest := List.mem_of_mem_getLast? hlast
      have hi : i ≠ t := by
        intro he
        exact (List.nodup_cons.mp hnd).1 (he ▸ htmem)
      refine ⟨?_, ?_⟩
      · rw [h i (by simp) hi]
        exact hc.1
      · exact chainNext_snoc ns ns' t m (j :: rest) hlast
          (List.nodup_cons.mp hnd).2
          (fun k hk hkt => h k (List.mem_cons_of_mem i hk) hkt) ht hm hc.2

theorem chainPrev_snoc (ns ns' : List Node) (t m : Nat) :
    ∀ (is : List Nat) (p : Option Nat), is.getLast? = some t →
      (∀ k ∈ is, (getNode ns' k).prev = (getNode ns k).prev) →
      (getNode ns' m).prev = some t →
      ChainPrev ns p is → ChainPrev ns' p (is ++ [m])
  | [] => fun _ hlast _ _ _ => by simp at hlast
  | [i] => fun p hlast h hm hc => by
      simp only [List.getLast?_singleton, Option.some_inj] at hlast
      subst hlast
      refine ⟨by rw [h i (by simp)]; exact hc.1, hm, trivial⟩
  | i :: j :: rest => fun p hlast h hm hc => by
      refine ⟨by rw [h i (by simp)]; exact hc.1, ?_⟩
      exact chainPrev_snoc ns ns' t m (j :: rest) (some i) hlast
        (fun k hk => h k (List.mem_cons_of_mem i hk)) hm hc.2

theorem chainNext_mem (ns : List Node) :
    ∀ is : List Nat, ChainNext ns is →
      ∀ k ∈ is, ∀ x, (getNode ns k).next = some x → x ∈ is
  | [] => fun _ k hk => by simp at hk
  | [i] => fun hc k hk x hx => by
      simp only [List.mem_singleton] at hk
      subst hk
      rw [hc] at hx
      simp at hx
  | i :: j :: rest => fun hc k hk x hx => by
      rcases List.mem_cons.mp hk with rfl | hk
      · rw [hc.1] at hx
        simp only [Option.some_inj] at hx
        subst hx
        simp
      · exact List.mem_cons_of_mem i
          (chainNext_mem ns (j :: rest) hc.2 k hk x hx)

theorem chainPrev_mem (ns : List Node) :
    ∀ (is : List Nat) (p : Option Nat), ChainPrev ns p is →
      ∀ k ∈ is, ∀ x, (getNode ns k).prev = some x → some x = p ∨ x ∈ is
  | [] => fun _ _ k hk => by simp at hk
  | i :: rest => fun p hc k hk x hx => by
      rcases List.mem_cons.mp hk with rfl | hk
      · left
        rw [← hc.1, hx]
      · rcases chainPrev_mem ns rest (some i) hc.2 k hk x hx with h | h
        · right
          simp only [Option.some_inj] at h
          subst h
          simp
        · exact Or.inr (List.mem_cons_of_mem i h)

/-- `append` preserves the shape invariant, extending the chain with the
freshly allocated id. -/
theorem BetterTransactionLog.append_shape {s : BetterTransactionLog}
    {is : List Nat} (h : s.Shape is) (v : String) :
    (s.append v).Shape (is ++ [s.nodes.length]) := by
  cases htail : s.tail with
  | none =>
      have hisnil : is = [] := by
        have ht := h.tail_eq
        rw [htail] at ht
        exact List.getLast?_eq_none_iff.mp ht.symm
      subst hisnil
      have hlen0 : s.length = 0 := h.len_eq
      have happ : s.append v =
          { nodes := s.nodes ++ [Node.new v], head := some s.nodes.length,
            tail := some s.nodes.length, length := s.length + 1 } := by
        simp [BetterTransactionLog.append, htail]
      rw [happ]
      constructor
      · simp
      · simp
      · simp [hlen0]
      · simp
      · intro k hk
        simp only [List.nil_append, List.mem_singleton] at hk
        subst hk
        simp
      · show ChainNext (s.nodes ++ [Node.new v]) [s.nodes.length]
        show (getNode (s.nodes ++ [Node.new v]) s.nodes.length).next = none
        rw [getNode_concat_self]
        rfl
      · show ChainPrev (s.nodes ++ [Node.new v]) none [s.nodes.length]
        refine ⟨?_, trivial⟩
        rw [getNode_concat_self]
        rfl
      · intro k hklt hknot
        simp only [List.length_append, List.length_singleton] at hklt
        simp only [List.nil_append, List.mem_singleton] at hknot
        have hk : k < s.nodes.length := by omega
        rw [getNode_append_lt _ _ _ hk]
        exact h.clean k hk (by simp)
  | some t =>
      have hlast : is.getLast? = some t := by
        have ht := h.tail_eq
        rw [htail] at ht
        exact ht.symm
      have htmem : t ∈ is := List.mem_of_mem_getLast? hlast
      have htlt : t < s.nodes.length := h.bound t htmem
      have hmnot : s.nodes.length ∉ is := fun hmem =>
        absurd (h.bound _ hmem) (lt_irrefl _)
      have hisne : is ≠ [] := by
        intro he
        rw [he] at hlast
        simp at hlast
      have happ : s.append v =
          { nodes := setPrev (setNext (s.nodes ++ [Node.new v]) t
              (some s.nodes.length)) s.nodes.length (some t),
            head := s.head, tail := some s.nodes.length,
            length := s.length + 1 } := by
        simp [BetterTransactionLog.append, htail]
      have hlenA : (setNext (s.nodes ++ [Node.new v]) t
          (some s.nodes.length)).length = s.nodes.length + 1 := by
        rw [length_setNext]
        simp
      have hlen' : (setPrev (setNext (s.nodes ++ [Node.new v]) t
          (some s.nodes.length)) s.nodes.length (some t)).length
          = s.nodes.length + 1 := by
        rw [length_setPrev, hlenA]
      have hnode : ∀ k, k < s.nodes.length → k ≠ t →
          getNode (setPrev (setNext (s.nodes ++ [Node.new v]) t
            (some s.nodes.length)) s.nodes.length (some t)) k
          = getNode s.nodes k := by
        intro k hklt hkt
        rw [getNode_setPrev_ne _ _ _ _ (by omega),
          getNode_setNext_ne _ _ _ _ (fun he => hkt he.symm),
          getNode_append_lt _ _ _ hklt]
      rw [happ]
      constructor
      · rw [h.head_eq, List.head?_append_of_ne_nil is hisne]
      · rw [List.getLast?_concat]
      · simp [h.len_eq]
      · simp [List.nodup_append, h.nodup, hmnot]
      · intro k hk
        rw [hlen']
        rcases List.mem_append.mp hk with hk | hk
        · exact lt_trans (h.bound k hk) (by omega)
        · simp only [List.mem_singleton] at hk
          omega
      · refine chainNext_snoc s.nodes _ t s.nodes.length is hlast h.nodup
          ?_ ?_ ?_ h.chain_next
        · intro k hk hkt
          rw [hnode k (h.bound k hk) hkt]
        · rw [next_setPrev,
            getNode_setNext_self _ _ _ (by rw [List.length_append]; omega)]
        · rw [next_setPrev, getNode_setNext_ne _ _ _ _ (by omega),
            getNode_concat_self]
          rfl
      · refine chainPrev_snoc s.nodes _ t s.nodes.length is none hlast
          ?_ ?_ h.chain_prev
        · intro k hk
          by_cases hkt : k = t
          · subst hkt
            rw [getNode_setPrev_ne _ _ _ _ (by omega), prev_setNext,
              getNode_append_lt _ _ _ htlt]
          · rw [hnode k (h.bound k hk) hkt]
        · rw [getNode_setPrev_self _ _ _ (by rw [hlenA]; omega)]
      · intro k hklt hknot
        rw [hlen'] at hklt
        simp only [List.mem_append, List.mem_singleton, not_or] at hknot
        have hklt' : k < s.nodes.length := by omega
        have hkt : k ≠ t := fun he => hknot.1 (he ▸ htmem)
        rw [hnode k hklt' hkt]
        exact h.clean k hklt' hknot.1

theorem slots_sum_zero (ns : List Node) (i : Nat)
    (hn : ∀ k < ns.length,
      (getNode ns k).next ≠ some i ∧ (getNode ns k).prev ≠ some i) :
    ((List.range ns.length).map
      (fun k => linkCount (getNode ns k).next i +
        linkCount (getNode ns k).prev i)).sum = 0 := by
  apply List.sum_eq_zero
  intro x hx
  rcases List.mem_map.mp hx with ⟨k, hk, rfl⟩
  have h := hn k (List.mem_range.mp hk)
  simp [linkCount, h.1, h.2]

theorem refCount_eq_zero (s : BetterTransactionLog) (i : Nat)
    (hh : s.head ≠ some i) (ht : s.tail ≠ some i)
    (hn : ∀ k < s.nodes.length,
      (getNode s.nodes k).next ≠ some i ∧ (getNode s.nodes k).prev ≠ some i) :
    refCount s i = 0 := by
  rw [refCount, slots_sum_zero s.nodes i hn]
  simp [linkCount, hh, ht]

theorem refCountTL_eq_zero (s : TransactionLog) (i : Nat)
    (hh : s.head ≠ some i) (ht : s.tail ≠ some i)
    (hn : ∀ k < s.nodes.length,
      (getNode s.nodes k).next ≠ some i ∧ (getNode s.nodes k).prev ≠ some i) :
    refCountTL s i = 0 := by
  rw [refCountTL, slots_sum_zero s.nodes i hn]
  simp [linkCount, hh, ht]

/-- `pop` on a non-empty well-shaped doubly linked log: the head node is
detached, its structural reference count is zero at the `Rc::try_unwrap`
point (so the `expect` cannot panic), its value is returned, and the shape
invariant holds of the remaining chain.  Values of all arena nodes are
unchanged. -/
theorem BetterTransactionLog.pop_cons {s : BetterTransactionLog} {i : Nat}
    {rest : List Nat} (h : s.Shape (i :: rest)) :
    ∃ s', s.popDetach = some (i, s') ∧ refCount s' i = 0 ∧
      s.pop = Except.ok (some (getNode s.nodes i).value, s') ∧
      s'.Shape rest ∧ s'.nodes.length = s.nodes.length ∧
      s'.length = s.length - 1 ∧
      ∀ k, (getNode s'.nodes k).value = (getNode s.nodes k).value := by
  have hhead : s.head = some i := by rw [h.head_eq]; rfl
  have hilt : i < s.nodes.length := h.bound i (by simp)
  have hinotrest : i ∉ rest := (List.nodup_cons.mp h.nodup).1
  have hcp := h.chain_prev
  simp only [ChainPrev] at hcp
  cases rest with
  | nil =>
      have hnexti : (getNode s.nodes i).next = none := h.chain_next
      refine ⟨{ nodes := setNext s.nodes i none, head := none, tail := none,
                length := s.length - 1 }, ?_, ?_, ?_, ?_, ?_, ?_, ?_⟩
      case _ =>
        simp [BetterTransactionLog.popDetach, hhead, hnexti]
      case _ =>
        apply refCount_eq_zero
        · simp
        · simp
        · intro k hk
          rw [length_setNext] at hk
          by_cases hki : k = i
          · subst hki
            rw [getNode_setNext_self _ _ _ hilt]
            constructor
            · simp
            · simp only
              rw [hcp.1]
              simp
          · rw [getNode_setNext_ne _ _ _ _ (fun he => hki he.symm)]
            have hc := h.clean k hk (by simpa using hki)
            simp [hc.1, hc.2]
      case _ =>
        have hdet : s.popDetach = some (i,
            { nodes := setNext s.nodes i none, head := none, tail := none,
              length := s.length - 1 }) := by
          simp [BetterTransactionLog.popDetach, hhead, hnexti]
        have hrc : refCount { nodes := setNext s.nodes i none, head := none,
                              tail := none, length := s.length - 1
                              : BetterTransactionLog } i = 0 := by
          apply refCount_eq_zero
          · simp
          · simp
          · intro k hk
            rw [length_setNext] at hk
            by_cases hki : k = i
            · subst hki
              rw [getNode_setNext_self _ _ _ hilt]
              constructor
              · simp
              · simp only
                rw [hcp.1]
                simp
            · rw [getNode_setNext_ne _ _ _ _ (fun he => hki he.symm)]
              have hc := h.clean k hk (by simpa using hki)
              simp [hc.1, hc.2]
        rw [BetterTransactionLog.pop, hdet]
        simp only [hrc, if_pos]
        rw [value_setNext]
      case _ =>
        constructor
        · rfl
        · rfl
        · have hl := h.len_eq
          simp only [List.length_singleton] at hl
          simp [hl]
        · simp
        · simp
        · trivial
        · trivial
        · intro k hk hk2
          rw [length_setNext] at hk
          by_cases hki : k = i
          · subst hki
            rw [getNode_setNext_self _ _ _ hilt]
            exact ⟨rfl, hcp.1⟩
          · rw [getNode_setNext_ne _ _ _ _ (fun he => hki he.symm)]
            exact h.clean k hk (by simpa using hki)
      case _ => exact length_setNext _ _ _
      case _ => rfl
      case _ => exact fun k => value_setNext _ _ _ _
  | cons j rest' =>
      have hcn := h.chain_next
      simp only [ChainNext] at hcn
      have hij : i ≠ j := by
        intro he
        exact hinotrest (he ▸ List.mem_cons_self j rest')
      have hjlt : j < s.nodes.length := h.bound j (by simp)
      have hnd' : (j :: rest').Nodup := (List.nodup_cons.mp h.nodup).2
      have hjnotrest' : j ∉ rest' := (List.nodup_cons.mp hnd').1
      have htail' : s.tail = (j :: rest').getLast? := h.tail_eq
      have htailne : s.tail ≠ some i := by
        cases hx : (j :: rest').getLast? with
        | none => simp at hx
        | some x =>
            have hxmem : x ∈ j :: rest' := List.mem_of_mem_getLast? hx
            rw [htail', hx]
            intro he
            simp only [Option.some_inj] at he
            exact hinotrest (he ▸ hxmem)
      have hlen1 : (setNext s.nodes i none).length = s.nodes.length :=
        length_setNext _ _ _
      have hlen2 : (setPrev (setNext s.nodes i none) j none).length
          = s.nodes.length := by rw [length_setPrev, hlen1]
      have hni : getNode (setPrev (setNext s.nodes i none) j none) i
          = { getNode s.nodes i with next := none } := by
        rw [getNode_setPrev_ne _ _ _ _ (fun he => hij he.symm),
          getNode_setNext_self _ _ _ hilt]
      have hnjprev : (getNode (setPrev (setNext s.nodes i none) j none) j).prev
          = none := by
        rw [getNode_setPrev_self _ _ _ (by rw [hlen1]; exact hjlt)]
      have hnjnext : (getNode (setPrev (setNext s.nodes i none) j none) j).next
          = (getNode s.nodes j).next := by
        rw [next_setPrev, getNode_setNext_ne _ _ _ _ hij]
      have hnk : ∀ k, k ≠ i → k ≠ j →
          getNode (setPrev (setNext s.nodes i none) j none) k
          = getNode s.nodes k := by
        intro k hki hkj
        rw [getNode_setPrev_ne _ _ _ _ (fun he => hkj he.symm),
          getNode_setNext_ne _ _ _ _ (fun he => hki he.symm)]
      have hslots : ∀ k, k < s.nodes.length →
          (getNode (setPrev (setNext s.nodes i none) j none) k).next ≠ some i ∧
          (getNode (setPrev (setNext s.nodes i none) j none) k).prev
            ≠ some i := by
        intro k hk
        by_cases hki : k = i
        · subst hki
          rw [hni]
          constructor
          · simp
          · simp only
            rw [hcp.1]
            simp
        · by_cases hkj : k = j
          · rw [hkj]
            constructor
            · rw [hnjnext]
              intro he
              exact hinotrest
                (chainNext_mem s.nodes (j :: rest') hcn.2 j (by simp) i he)
            · rw [hnjprev]
              simp
          · rw [hnk k hki hkj]
            by_cases hkmem : k ∈ j :: rest'
            · constructor
              · intro he
                exact hinotrest
                  (chainNext_mem s.nodes (j :: rest') hcn.2 k hkmem i he)
              · rcases List.mem_cons.mp hkmem with rfl | hkr
                · exact absurd rfl hkj
                · intro he
                  rcases chainPrev_mem s.nodes rest' (some j) hcp.2.2 k hkr
                      i he with hx | hx
                  · simp only [Option.some_inj] at hx
                    exact hij hx
                  · exact hinotrest (List.mem_cons_of_mem j hx)
            · have hc := h.clean k hk (by
                intro hmem
                rcases List.mem_cons.mp hmem with rfl | hmem
                · exact hki rfl
                · exact hkmem hmem)
              simp [hc.1, hc.2]
      have hdet : s.popDetach = some (i,
          { nodes := setPrev (setNext s.nodes i none) j none, head := some j,
            tail := s.tail, length := s.length - 1 }) := by
        simp [BetterTransactionLog.popDetach, hhead, hcn.1]
      have hrc : refCount { nodes := setPrev (setNext s.nodes i none) j none,
                            head := some j, tail := s.tail,
                            length := s.length - 1
                            : BetterTransactionLog } i = 0 := by
        apply refCount_eq_zero
        · simp only
          intro he
          simp only [Option.some_inj] at he
          exact hij he.symm
        · exact htailne
        · intro k hk
          rw [hlen2] at hk
          exact hslots k hk
      refine ⟨_, hdet, hrc, ?_, ?_, hlen2, rfl, ?_⟩
      · rw [BetterTransactionLog.pop, hdet]
        simp only [hrc, if_pos]
        have : (getNode (setPrev (setNext s.nodes i none) j none) i).value
            = (getNode s.nodes i).value := by rw [hni]
        rw [this]
      · constructor
        · rfl
        · exact htail'
        · have := h.len_eq
          simp only [List.length_cons] at this ⊢
          omega
        · exact hnd'
        · intro k hk
          rw [hlen2]
          exact h.bound k (List.mem_cons_of_mem i hk)
        · apply chainNext_congr s.nodes _ (j :: rest') _ hcn.2
          intro k hk
          rcases List.mem_cons.mp hk with rfl | hkr
          · exact hnjnext
          · rw [hnk k (fun he => hinotrest (he ▸ hk))
              (fun he => hjnotrest' (he ▸ hkr))]
        · refine ⟨hnjprev, ?_⟩
          apply chainPrev_congr s.nodes _ rest' (some j) _ hcp.2.2
          intro k hk
          rw [hnk k (fun he => hinotrest (he ▸ List.mem_cons_of_mem j hk))
            (fun he => hjnotrest' (he ▸ hk))]
        · intro k hk hk2
          rw [hlen2] at hk
          by_cases hki : k = i
          · subst hki
            rw [hni]
            exact ⟨rfl, hcp.1⟩
          · have hkj : k ≠ j := fun he => hk2 (he ▸ List.mem_cons_self j rest')
            rw [hnk k hki hkj]
            exact h.clean k hk (by
              intro hmem
              rcases List.mem_cons.mp hmem with rfl | hmem
              · exact hki rfl
              · exact hk2 hmem)
      · intro k
        rw [value_setPrev, value_setNext]

/-- `TransactionLog.append` preserves the singly linked shape invariant. -/
theorem TransactionLog.append_shape_tl {s : TransactionLog} {is : List Nat}
    (h : s.Shape is) (v : String) :
    (s.append v).Shape (is ++ [s.nodes.length]) := by
  cases htail : s.tail with
  | none =>
      have hisnil : is = [] := by
        have ht := h.tail_eq
        rw [htail] at ht
        exact List.getLast?_eq_none_iff.mp ht.symm
      subst hisnil
      have hlen0 : s.length = 0 := h.len_eq
      have happ : s.append v =
          { nodes := s.nodes ++ [Node.new v], head := some s.nodes.length,
            tail := some s.nodes.length, length := s.length + 1 } := by
        simp [TransactionLog.append, htail]
      rw [happ]
      constructor
      · simp
      · simp
      · simp [hlen0]
      · simp
      · intro k hk
        simp only [List.nil_append, List.mem_singleton] at hk
        subst hk
        simp
      · show (getNode (s.nodes ++ [Node.new v]) s.nodes.length).next = none
        rw [getNode_concat_self]
        rfl
      · intro k hklt
        simp only [List.length_append, List.length_singleton] at hklt
        by_cases hk : k < s.nodes.length
        · rw [getNode_append_lt _ _ _ hk]
          exact h.prev_none k hk
        · have : k = s.nodes.length := by omega
          subst this
          rw [getNode_concat_self]
          rfl
      · intro k hklt hknot
        simp only [List.length_append, List.length_singleton] at hklt
        simp only [List.nil_append, List.mem_singleton] at hknot
        have hk : k < s.nodes.length := by omega
        rw [getNode_append_lt _ _ _ hk]
        exact h.clean k hk (by simp)
  | some t =>
      have hlast : is.getLast? = some t := by
        have ht := h.tail_eq
        rw [htail] at ht
        exact ht.symm
      have htmem : t ∈ is := List.mem_of_mem_getLast? hlast
      have htlt : t < s.nodes.length := h.bound t htmem
      have hmnot : s.nodes.length ∉ is := fun hmem =>
        absurd (h.bound _ hmem) (lt_irrefl _)
      have hisne : is ≠ [] := by
        intro he
        rw [he] at hlast
        simp at hlast
      have happ : s.append v =
          { nodes := setNext (s.nodes ++ [Node.new v]) t (some s.nodes.length),
            head := s.head, tail := some s.nodes.length,
            length := s.length + 1 } := by
        simp [TransactionLog.append, htail]
      have hlenA : (setNext (s.nodes ++ [Node.new v]) t
          (some s.nodes.length)).length = s.nodes.length + 1 := by
        rw [length_setNext]
        simp
      have hnode : ∀ k, k < s.nodes.length → k ≠ t →
          getNode (setNext (s.nodes ++ [Node.new v]) t (some s.nodes.length)) k
          = getNode s.nodes k := by
        intro k hklt hkt
        rw [getNode_setNext_ne _ _ _ _ (fun he => hkt he.symm),
          getNode_append_lt _ _ _ hklt]
      rw [happ]
      constructor
      · rw [h.head_eq, List.head?_append_of_ne_nil is hisne]
      · rw [List.getLast?_concat]
      · simp [h.len_eq]
      · simp [List.nodup_append, h.nodup, hmnot]
      · intro k hk
        rw [hlenA]
        rcases List.mem_append.mp hk with hk | hk
        · exact lt_trans (h.bound k hk) (by omega)
        · simp only [List.mem_singleton] at hk
          omega
      · refine chainNext_snoc s.nodes _ t s.nodes.length is hlast h.nodup
          ?_ ?_ ?_ h.chain_next
        · intro k hk hkt
          rw [hnode k (h.bound k hk) hkt]
        · rw [getNode_setNext_self _ _ _ (by rw [List.length_append]; omega)]
        · rw [getNode_setNext_ne _ _ _ _ (by omega), getNode_concat_self]
          rfl
      · intro k hklt
        rw [hlenA] at hklt
        rw [prev_setNext]
        by_cases hk : k < s.nodes.length
        · rw [getNode_append_lt _ _ _ hk]
          exact h.prev_none k hk
        · have : k = s.nodes.length := by omega
          subst this
          rw [getNode_concat_self]
          rfl
      · intro k hklt hknot
        rw [hlenA] at hklt
        simp only [List.mem_append, List.mem_singleton, not_or] at hknot
        have hklt' : k < s.nodes.length := by omega
        have hkt : k ≠ t := fun he => hknot.1 (he ▸ htmem)
        rw [hnode k hklt' hkt]
        exact h.clean k hklt' hknot.1

/-- `TransactionLog.pop` on a non-empty well-shaped singly linked log: as in
the doubly linked case the reference count of the detached head is zero, so
`Rc::try_unwrap` succeeds — no `prev` link ever points at the head since
this variant never sets `prev` at all. -/
theorem TransactionLog.pop_cons_tl {s : TransactionLog} {i : Nat}
    {rest : List Nat} (h : s.Shape (i :: rest)) :
    ∃ s', s.popDetach = some (i, s') ∧ refCountTL s' i = 0 ∧
      s.pop = Except.ok (some (getNode s.nodes i).value, s') ∧
      s'.Shape rest ∧ s'.nodes.length = s.nodes.length ∧
      s'.length = s.length - 1 ∧
      ∀ k, (getNode s'.nodes k).value = (getNode s.nodes k).value := by
  have hhead : s.head = some i := by rw [h.head_eq]; rfl
  have hilt : i < s.nodes.length := h.bound i (by simp)
  have hinotrest : i ∉ rest := (List.nodup_cons.mp h.nodup).1
  have hprevslots : ∀ k, k < s.nodes.length →
      (getNode (setNext s.nodes i none) k).prev ≠ some i := by
    intro k hk
    rw [prev_setNext, h.prev_none k hk]
    simp
  have hprevnone : ∀ k, k < s.nodes.length →
      (getNode (setNext s.nodes i none) k).prev = none := by
    intro k hk
    rw [prev_setNext]
    exact h.prev_none k hk
  cases rest with
  | nil =>
      have hnexti : (getNode s.nodes i).next = none := h.chain_next
      have hdet : s.popDetach = some (i,
          { nodes := setNext s.nodes i none, head := none, tail := none,
            length := s.length - 1 }) := by
        simp [TransactionLog.popDetach, hhead, hnexti]
      have hrc : refCountTL { nodes := setNext s.nodes i none, head := none,
                              tail := none, length := s.length - 1
                              : TransactionLog } i = 0 := by
        apply refCountTL_eq_zero
        · simp
        · simp
        · intro k hk
          rw [length_setNext] at hk
          refine ⟨?_, hprevslots k hk⟩
          by_cases hki : k = i
          · subst hki
            rw [getNode_setNext_self _ _ _ hilt]
            simp
          · rw [getNode_setNext_ne _ _ _ _ (fun he => hki he.symm)]
            rw [h.clean k hk (by simpa using hki)]
            simp
      refine ⟨_, hdet, hrc, ?_, ?_, length_setNext _ _ _, rfl, ?_⟩
      · rw [TransactionLog.pop, hdet]
        simp only [hrc, if_pos]
        rw [value_setNext]
      · constructor
        · rfl
        · rfl
        · have hl := h.len_eq
          simp only [List.length_singleton] at hl
          simp [hl]
        · simp
        · simp
        · trivial
        · intro k hk
          rw [length_setNext] at hk
          exact hprevnone k hk
        · intro k hk hk2
          rw [length_setNext] at hk
          by_cases hki : k = i
          · subst hki
            rw [getNode_setNext_self _ _ _ hilt]
          · rw [getNode_setNext_ne _ _ _ _ (fun he => hki he.symm)]
            exact h.clean k hk (by simpa using hki)
      · exact fun k => value_setNext _ _ _ _
  | cons j rest' =>
      have hcn := h.chain_next
      simp only [ChainNext] at hcn
      have hij : i ≠ j := by
        intro he
        exact hinotrest (he ▸ List.mem_cons_self j rest')
      have htail' : s.tail = (j :: rest').getLast? := h.tail_eq
      have htailne : s.tail ≠ some i := by
        cases hx : (j :: rest').getLast? with
        | none => simp at hx
        | some x =>
            have hxmem : x ∈ j :: rest' := List.mem_of_mem_getLast? hx
            rw [htail', hx]
            intro he
            simp only [Option.some_inj] at he
            exact hinotrest (he ▸ hxmem)
      have hnexts : ∀ k, k < s.nodes.length →
          (getNode (setNext s.nodes i none) k).next ≠ some i := by
        intro k hk
        by_cases hki : k = i
        · subst hki
          rw [getNode_setNext_self _ _ _ hilt]
          simp
        · rw [getNode_setNext_ne _ _ _ _ (fun he => hki he.symm)]
          by_cases hkmem : k ∈ j :: rest'
          · intro he
            exact hinotrest
              (chainNext_mem s.nodes (j :: rest') hcn.2 k hkmem i he)
          · rw [h.clean k hk (by
              intro hmem
              rcases List.mem_cons.mp hmem with rfl | hmem
              · exact hki rfl
              · exact hkmem hmem)]
            simp
      have hdet : s.popDetach = some (i,
          { nodes := setNext s.nodes i none, head := some j,
            tail := s.tail, length := s.length - 1 }) := by
        simp [TransactionLog.popDetach, hhead, hcn.1]
      have hrc : refCountTL { nodes := setNext s.nodes i none, head := some j,
                              tail := s.tail, length := s.length - 1
                              : TransactionLog } i = 0 := by
        apply refCountTL_eq_zero
        · simp only
          intro he
          simp only [Option.some_inj] at he
          exact hij he.symm
        · exact htailne
        · intro k hk
          rw [length_setNext] at hk
          exact ⟨hnexts k hk, hprevslots k hk⟩
      refine ⟨_, hdet, hrc, ?_, ?_, length_setNext _ _ _, rfl, ?_⟩
      · rw [TransactionLog.pop, hdet]
        simp only [hrc, if_pos]
        rw [value_setNext]
      · constructor
        · rfl
        · exact htail'
        · have := h.len_eq
          simp only [List.length_cons] at this ⊢
          omega
        · exact (List.nodup_cons.mp h.nodup).2
        · intro k hk
          rw [length_setNext]
          exact h.bound k (List.mem_cons_of_mem i hk)
        · apply chainNext_congr s.nodes _ (j :: rest') _ hcn.2
          intro k hk
          rw [getNode_setNext_ne _ _ _ _
            (fun he => hinotrest (by rw [he]; exact hk))]
        · intro k hk
          rw [length_setNext] at hk
          exact hprevnone k hk
        · intro k hk hk2
          rw [length_setNext] at hk
          by_cases hki : k = i
          · subst hki
            rw [getNode_setNext_self _ _ _ hilt]
          · rw [getNode_setNext_ne _ _ _ _ (fun he => hki he.symm)]
            exact h.clean k hk (by
              intro hmem
              rcases List.mem_cons.mp hmem with rfl | hmem
              · exact hki rfl
              · exact hk2 hmem)
      · exact fun k => value_setNext _ _ _ _

theorem BetterTransactionLog.new_empty_shape :
    BetterTransactionLog.new_empty.Shape [] := by
  constructor
  · rfl
  · rfl
  · rfl
  · simp
  · simp
  · trivial
  · trivial
  · intro k hk
    simp [BetterTransactionLog.new_empty] at hk

theorem TransactionLog.new_empty_shape_tl : TransactionLog.new_empty.Shape [] := by
  constructor
  · rfl
  · rfl
  · rfl
  · simp
  · simp
  · trivial
  · intro k hk
    simp [TransactionLog.new_empty] at hk
  · intro k hk
    simp [TransactionLog.new_empty] at hk

/-- `pop` on an empty-shaped doubly linked log returns `none` and leaves the
state untouched. -/
theorem BetterTransactionLog.pop_nil {s : BetterTransactionLog}
    (h : s.Shape []) : s.pop = Except.ok (none, s) := by
  have hhead : s.head = none := h.head_eq
  have hdet : s.popDetach = none := by
    simp [BetterTransactionLog.popDetach, hhead]
  rw [BetterTransactionLog.pop, hdet]

/-- `pop` on an empty-shaped singly linked log returns `none` and leaves the
state untouched. -/
theorem TransactionLog.pop_nil_tl {s : TransactionLog} (h : s.Shape []) :
    s.pop = Except.ok (none, s) := by
  have hhead : s.head = none := h.head_eq
  have hdet : s.popDetach = none := by
    simp [TransactionLog.popDetach, hhead]
  rw [TransactionLog.pop, hdet]

/-- Every reachable doubly linked log is well shaped for some chain of ids. -/
theorem BetterTransactionLog.reachable_shape {s : BetterTransactionLog}
    (h : s.Reachable) : ∃ is, s.Shape is := by
  induction h with
  | empty => exact ⟨[], BetterTransactionLog.new_empty_shape⟩
  | append s v _ ih =>
      rcases ih with ⟨is, hs⟩
      exact ⟨is ++ [s.nodes.length], BetterTransactionLog.append_shape hs v⟩
  | pop s v s' _ hpop ih =>
      rcases ih with ⟨is, hs⟩
      cases is with
      | nil =>
          rw [BetterTransactionLog.pop_nil hs] at hpop
          simp only [Except.ok.injEq, Prod.mk.injEq] at hpop
          exact ⟨[], hpop.2 ▸ hs⟩
      | cons i rest =>
          rcases BetterTransactionLog.pop_cons hs with
            ⟨s₀, _, _, hpop', hs₀, _, _, _⟩
          rw [hpop'] at hpop
          simp only [Except.ok.injEq, Prod.mk.injEq] at hpop
          exact ⟨rest, hpop.2 ▸ hs₀⟩

/-- Every reachable singly linked log is well shaped for some chain of ids. -/
theorem TransactionLog.reachable_shape_tl {s : TransactionLog}
    (h : s.Reachable) : ∃ is, s.Shape is := by
  induction h with
  | empty => exact ⟨[], TransactionLog.new_empty_shape_tl⟩
  | append s v _ ih =>
      rcases ih with ⟨is, hs⟩
      exact ⟨is ++ [s.nodes.length], TransactionLog.append_shape_tl hs v⟩
  | pop s v s' _ hpop ih =>
      rcases ih with ⟨is, hs⟩
      cases is with
      | nil =>
          rw [TransactionLog.pop_nil_tl hs] at hpop
          simp only [Except.ok.injEq, Prod.mk.injEq] at hpop
          exact ⟨[], hpop.2 ▸ hs⟩
      | cons i rest =>
          rcases TransactionLog.pop_cons_tl hs with
            ⟨s₀, _, _, hpop', hs₀, _, _, _⟩
          rw [hpop'] at hpop
          simp only [Except.ok.injEq, Prod.mk.injEq] at hpop
          exact ⟨rest, hpop.2 ▸ hs₀⟩

theorem chainValues_congr (ns ns' : List Node) (is : List Nat)
    (h : ∀ k, (getNode ns' k).value = (getNode ns k).value) :
    chainValues ns' is = chainValues ns is := by
  apply List.map_congr_left
  intro a _
  exact h a

theorem BetterTransactionLog.append_value_old (s : BetterTransactionLog)
    (v : String) (k : Nat) (hk : k < s.nodes.length) :
    (getNode (s.append v).nodes k).value = (getNode s.nodes k).value := by
  cases htail : s.tail <;> simp only [BetterTransactionLog.append, htail]
  · rw [getNode_append_lt _ _ _ hk]
  · rw [value_setPrev, value_setNext, getNode_append_lt _ _ _ hk]

theorem BetterTransactionLog.append_value_new (s : BetterTransactionLog)
    (v : String) :
    (getNode (s.append v).nodes s.nodes.length).value = v := by
  cases htail : s.tail <;> simp only [BetterTransactionLog.append, htail]
  · rw [getNode_concat_self]
    rfl
  · rw [value_setPrev, value_setNext, getNode_concat_self]
    rfl

theorem TransactionLog.append_value_old_tl (s : TransactionLog)
    (v : String) (k : Nat) (hk : k < s.nodes.length) :
    (getNode (s.append v).nodes k).value = (getNode s.nodes k).value := by
  cases htail : s.tail <;> simp only [TransactionLog.append, htail]
  · rw [getNode_append_lt _ _ _ hk]
  · rw [value_setNext, getNode_append_lt _ _ _ hk]

theorem TransactionLog.append_value_new_tl (s : TransactionLog) (v : String) :
    (getNode (s.append v).nodes s.nodes.length).value = v := by
  cases htail : s.tail <;> simp only [TransactionLog.append, htail]
  · rw [getNode_concat_self]
    rfl
  · rw [value_setNext, getNode_concat_self]
    rfl

theorem BetterTransactionLog.append_chainValues {s : BetterTransactionLog}
    {is : List Nat} (h : s.Shape is) (v : String) :
    chainValues (s.append v).nodes (is ++ [s.nodes.length])
      = chainValues s.nodes is ++ [v] := by
  rw [chainValues, chainValues, List.map_append]
  congr 1
  · apply List.map_congr_left
    intro k hk
    exact BetterTransactionLog.append_value_old s v k (h.bound k hk)
  · simp [BetterTransactionLog.append_value_new]

theorem TransactionLog.append_chainValues_tl {s : TransactionLog}
    {is : List Nat} (h : s.Shape is) (v : String) :
    chainValues (s.append v).nodes (is ++ [s.nodes.length])
      = chainValues s.nodes is ++ [v] := by
  rw [chainValues, chainValues, List.map_append]
  congr 1
  · apply List.map_congr_left
    intro k hk
    exact TransactionLog.append_value_old_tl s v k (h.bound k hk)
  · simp [TransactionLog.append_value_new_tl]

theorem BetterTransactionLog.appendAll_shape :
    ∀ (vs : List String) (s : BetterTransactionLog) (is : List Nat),
      s.Shape is →
      ∃ is', (s.appendAll vs).Shape is' ∧
        chainValues (s.appendAll vs).nodes is' = chainValues s.nodes is ++ vs
  | [], s, is, h => ⟨is, h, by simp [BetterTransactionLog.appendAll]⟩
  | v :: vs, s, is, h => by
      rcases BetterTransactionLog.appendAll_shape vs (s.append v)
        (is ++ [s.nodes.length]) (BetterTransactionLog.append_shape h v) with
        ⟨is', h1, h2⟩
      refine ⟨is', h1, ?_⟩
      show chainValues ((s.append v).appendAll vs).nodes is' = _
      rw [h2, BetterTransactionLog.append_chainValues h v, List.append_assoc]
      rfl

theorem TransactionLog.appendAll_shape_tl :
    ∀ (vs : List String) (s : TransactionLog) (is : List Nat),
      s.Shape is →
      ∃ is', (s.appendAll vs).Shape is' ∧
        chainValues (s.appendAll vs).nodes is' = chainValues s.nodes is ++ vs
  | [], s, is, h => ⟨is, h, by simp [TransactionLog.appendAll]⟩
  | v :: vs, s, is, h => by
      rcases TransactionLog.appendAll_shape_tl vs (s.append v)
        (is ++ [s.nodes.length]) (TransactionLog.append_shape_tl h v) with
        ⟨is', h1, h2⟩
      refine ⟨is', h1, ?_⟩
      show chainValues ((s.append v).appendAll vs).nodes is' = _
      rw [h2, TransactionLog.append_chainValues_tl h v, List.append_assoc]
      rfl

theorem BetterTransactionLog.popN_shape :
    ∀ (k : Nat) (s : BetterTransactionLog) (is : List Nat),
      s.Shape is → k ≤ is.length →
      ∃ s', s.popN k = .ok (chainValues s.nodes (is.take k), s') ∧
        s'.Shape (is.drop k) ∧
        chainValues s'.nodes (is.drop k) = chainValues s.nodes (is.drop k)
  | 0, s, is, h, _ => ⟨s, rfl, by simpa using h, by simp⟩
  | k + 1, s, is, h, hk => by
      cases is with
      | nil => simp at hk
      | cons i rest =>
          rcases BetterTransactionLog.pop_cons h with
            ⟨s₀, _, _, hpop, hs₀, _, _, hval⟩
          simp only [List.length_cons] at hk
          rcases BetterTransactionLog.popN_shape k s₀ rest hs₀
            (by omega) with ⟨s'', hrun, hsh, hv⟩
          refine ⟨s'', ?_, by simpa using hsh, ?_⟩
          · rw [BetterTransactionLog.popN, hpop]
            simp only [hrun]
            rw [chainValues_congr s.nodes s₀.nodes (rest.take k) hval]
            simp only [List.take_succ_cons]
            rfl
          · simp only [List.drop_succ_cons]
            rw [hv, chainValues_congr s.nodes s₀.nodes _ hval]

theorem TransactionLog.popN_shape_tl :
    ∀ (k : Nat) (s : TransactionLog) (is : List Nat),
      s.Shape is → k ≤ is.length →
      ∃ s', s.popN k = .ok (chainValues s.nodes (is.take k), s') ∧
        s'.Shape (is.drop k) ∧
        chainValues s'.nodes (is.drop k) = chainValues s.nodes (is.drop k)
  | 0, s, is, h, _ => ⟨s, rfl, by simpa using h, by simp⟩
  | k + 1, s, is, h, hk => by
      cases is with
      | nil => simp at hk
      | cons i rest =>
          rcases TransactionLog.pop_cons_tl h with
            ⟨s₀, _, _, hpop, hs₀, _, _, hval⟩
          simp only [List.length_cons] at hk
          rcases TransactionLog.popN_shape_tl k s₀ rest hs₀
            (by omega) with ⟨s'', hrun, hsh, hv⟩
          refine ⟨s'', ?_, by simpa using hsh, ?_⟩
          · rw [TransactionLog.popN, hpop]
            simp only [hrun]
            rw [chainValues_congr s.nodes s₀.nodes (rest.take k) hval]
            simp only [List.take_succ_cons]
            rfl
          · simp only [List.drop_succ_cons]
            rw [hv, chainValues_congr s.nodes s₀.nodes _ hval]

theorem walkNext_none_cursor (ns : List Node) :
    ∀ k : Nat, walkNext ns k none = none
  | 0 => rfl
  | k + 1 => walkNext_none_cursor ns k

theorem walkPrev_none_cursor (ns : List Node) :
    ∀ k : Nat, walkPrev ns k none = none
  | 0 => rfl
  | k + 1 => walkPrev_none_cursor ns k

theorem walkNext_succ_outer (ns : List Node) :
    ∀ (k : Nat) (o : Option Nat),
      walkNext ns (k + 1) o = nextStep ns (walkNext ns k o)
  | 0, o => rfl
  | k + 1, o => by
      show walkNext ns (k + 1) (nextStep ns o) = _
      rw [walkNext_succ_outer ns k (nextStep ns o)]
      rfl

theorem walkPrev_succ_outer (ns : List Node) :
    ∀ (k : Nat) (o : Option Nat),
      walkPrev ns (k + 1) o = prevStep ns (walkPrev ns k o)
  | 0, o => rfl
  | k + 1, o => by
      show walkPrev ns (k + 1) (prevStep ns o) = _
      rw [walkPrev_succ_outer ns k (prevStep ns o)]
      rfl

theorem walkNext_chain (ns : List Node) :
    ∀ (is : List Nat) (k : Nat), k < is.length → ChainNext ns is →
      walkNext ns k is.head? = is[k]?
  | [], k, hk, _ => absurd hk (by simp)
  | a :: rest, 0, _, _ => by
      rw [List.getElem?_cons_zero]
      rfl
  | a :: rest, k + 1, hk, hcn => by
      cases rest with
      | nil => simp at hk
      | cons c rest' =>
          show walkNext ns k (nextStep ns (some a)) = _
          have h1 : nextStep ns (some a) = some c := hcn.1
          rw [h1, List.getElem?_cons_succ]
          have ih := walkNext_chain ns (c :: rest') k (by simpa using hk) hcn.2
          exact ih

theorem walkNext_exhaust (ns : List Node) :
    ∀ is : List Nat, ChainNext ns is → walkNext ns is.length is.head? = none
  | [] => fun _ => rfl
  | [a] => fun hcn => by
      show nextStep ns (some a) = none
      exact hcn
  | a :: c :: rest => fun hcn => by
      show walkNext ns (c :: rest).length (nextStep ns (some a)) = none
      have h1 : nextStep ns (some a) = some c := hcn.1
      rw [h1]
      exact walkNext_exhaust ns (c :: rest) hcn.2

theorem walkPrev_chain (ns : List Node) :
    ∀ (is : List Nat) (p : Option Nat), ChainPrev ns p is →
      (∀ k, k < is.length →
        walkPrev ns k is.getLast? = is[is.length - 1 - k]?) ∧
      (is ≠ [] → walkPrev ns is.length is.getLast? = p)
  | [], p, _ => ⟨fun k hk => absurd hk (by simp), fun h => absurd rfl h⟩
  | [a], p, hcp => by
      constructor
      · intro k hk
        have hk0 : k = 0 := by simpa using hk
        subst hk0
        rfl
      · intro _
        show prevStep ns (some a) = p
        exact hcp.1
  | a :: b :: rest, p, hcp => by
      have ih := walkPrev_chain ns (b :: rest) (some a) hcp.2
      have hlast : (a :: b :: rest).getLast? = (b :: rest).getLast? := rfl
      constructor
      · intro k hk
        by_cases hkl : k < (b :: rest).length
        · have h1 := ih.1 k hkl
          rw [hlast, h1]
          have hidx : (a :: b :: rest).length - 1 - k
              = ((b :: rest).length - 1 - k) + 1 := by
            simp only [List.length_cons] at hkl ⊢
            omega
          rw [hidx, List.getElem?_cons_succ]
        · have hkeq : k = (b :: rest).length := by
            simp only [List.length_cons] at hk hkl ⊢
            omega
          subst hkeq
          rw [hlast, ih.2 (by simp)]
          have hidx : (a :: b :: rest).length - 1 - (b :: rest).length = 0 := by
            simp
          rw [hidx]
          rfl
      · intro _
        have houter : walkPrev ns ((b :: rest).length + 1)
            (a :: b :: rest).getLast?
            = prevStep ns (walkPrev ns ((b :: rest).length)
              (a :: b :: rest).getLast?) := walkPrev_succ_outer ns _ _
        show walkPrev ns ((b :: rest).length + 1) (a :: b :: rest).getLast? = p
        rw [houter, hlast, ih.2 (by simp)]
        show (getNode ns a).prev = p
        exact hcp.1

/-- In a well-formed chain, a `next` reference from a chain node to `j`
forces `j`'s `prev` to point back. -/
theorem chain_adj (ns : List Node) :
    ∀ (is : List Nat) (p : Option Nat), ChainNext ns is → ChainPrev ns p is →
      ∀ i j, i ∈ is → (getNode ns i).next = some j →
        (getNode ns j).prev = some i
  | [], _, _, _, i, j, hi, _ => absurd hi (by simp)
  | [a], _, hcn, _, i, j, hi, hnext => by
      have : i = a := by simpa using hi
      subst this
      rw [hcn] at hnext
      simp at hnext
  | a :: b :: rest, p, hcn, hcp, i, j, hi, hnext => by
      rcases List.mem_cons.mp hi with rfl | hi
      · have : some j = some b := by rw [← hnext, hcn.1]
        simp only [Option.some_inj] at this
        subst this
        exact hcp.2.1
      · exact chain_adj ns (b :: rest) (some a) hcn.2 hcp.2 i j hi hnext

/-- In a well-formed chain, a `prev` reference from a chain node to `i`
forces `i`'s `next` to point forward, provided the incoming accumulator
`po` is itself consistent with `next`. -/
theorem chain_adj_rev (ns : List Node) :
    ∀ (is : List Nat) (po : Option Nat), ChainNext ns is →
      ChainPrev ns po is →
      (∀ a, po = some a → ∀ b, is.head? = some b →
        (getNode ns a).next = some b) →
      ∀ i j, j ∈ is → (getNode ns j).prev = some i →
        (getNode ns i).next = some j
  | [], _, _, _, _, i, j, hj, _ => absurd hj (by simp)
  | b :: rest, po, hcn, hcp, hinv, i, j, hj, hprev => by
      rcases List.mem_cons.mp hj with rfl | hj
      · have hpo : po = some i := by rw [← hcp.1, hprev]
        exact hinv i hpo j rfl
      · cases rest with
        | nil => simp at hj
        | cons c rest' =>
            refine chain_adj_rev ns (c :: rest') (some b) hcn.2 hcp.2
              ?_ i j hj hprev
            intro a ha b' hb'
            simp only [Option.some_inj] at ha
            simp only [List.head?_cons, Option.some_inj] at hb'
            subst ha
            subst hb'
            exact hcn.1

/-- Every well-shaped doubly linked log satisfies the observable structural
invariant. -/
theorem structInv_of_shape {s : BetterTransactionLog} {is : List Nat}
    (hs : s.Shape is) : StructInv s := by
  have hlen := hs.len_eq
  have hhead := hs.head_eq
  have htail := hs.tail_eq
  refine ⟨?_, ?_, ?_, ?_⟩
  · constructor
    · intro h0
      have : is = [] := List.length_eq_zero.mp (hlen ▸ h0)
      subst this
      exact ⟨hhead, htail⟩
    · intro ⟨hh, _⟩
      have : is = [] := List.head?_eq_none_iff.mp (hhead ▸ hh)
      subst this
      simpa using hlen
  · constructor
    · intro h1
      rcases List.length_eq_one.mp (hlen ▸ h1) with ⟨a, rfl⟩
      rw [hhead, htail]
      exact ⟨by simp, rfl⟩
    · intro ⟨hne, heq⟩
      cases is with
      | nil => exact absurd hhead (by simpa using hne)
      | cons a rest =>
          cases rest with
          | nil => simpa using hlen
          | cons b rest' =>
              exfalso
              have hx : (b :: rest').getLast? = (a :: b :: rest').getLast? :=
                rfl
              cases hlx : (b :: rest').getLast? with
              | none => simp at hlx
              | some x =>
                  have hxmem : x ∈ b :: rest' := List.mem_of_mem_getLast? hlx
                  have : s.head = some x := by
                    rw [heq, htail, ← hx, hlx]
                  rw [hhead] at this
                  simp only [List.head?_cons, Option.some_inj] at this
                  exact (List.nodup_cons.mp hs.nodup).1 (this ▸ hxmem)
  · intro hge
    have hne : is ≠ [] := by
      intro he
      rw [he] at hlen
      simp only [List.length_nil] at hlen
      omega
    have hlpos : 0 < is.length := by
      rw [← hlen]
      omega
    have hwp := walkPrev_chain s.nodes is none hs.chain_prev
    refine ⟨?_, ?_, ?_, ?_, ?_, ?_⟩
    · rw [hhead, htail, hlen,
        walkNext_chain s.nodes is (is.length - 1) (by omega) hs.chain_next,
        List.getLast?_eq_getElem?]
    · rw [hhead, hlen]
      exact walkNext_exhaust s.nodes is hs.chain_next
    · intro k hk
      rw [hlen] at hk
      rw [hhead, htail,
        walkNext_chain s.nodes is k (by omega) hs.chain_next,
        List.getLast?_eq_getElem?,
        List.getElem?_eq_getElem (l := is) (by omega),
        List.getElem?_eq_getElem (l := is) (by omega : is.length - 1
          < is.length)]
      intro he
      simp only [Option.some_inj] at he
      have := (List.Nodup.getElem_inj_iff hs.nodup).mp he
      omega
    · rw [hhead, htail, hlen, hwp.1 (is.length - 1) (by omega)]
      have : is.length - 1 - (is.length - 1) = 0 := by omega
      rw [this, List.head?_eq_getElem?]
    · rw [htail, hlen]
      exact hwp.2 hne
    · intro k hk
      rw [hlen] at hk
      rw [hhead, htail, hwp.1 k (by omega),
        List.head?_eq_getElem?,
        List.getElem?_eq_getElem (l := is) (by omega : is.length - 1 - k
          < is.length),
        List.getElem?_eq_getElem (l := is) (by omega : 0 < is.length)]
      intro he
      simp only [Option.some_inj] at he
      have := (List.Nodup.getElem_inj_iff hs.nodup).mp he
      omega
  · intro i j hi hj
    constructor
    · intro hnext
      by_cases hmem : i ∈ is
      · exact chain_adj s.nodes is none hs.chain_next hs.chain_prev i j
          hmem hnext
      · rw [(hs.clean i hi hmem).1] at hnext
        simp at hnext
    · intro hprev
      by_cases hmem : j ∈ is
      · refine chain_adj_rev s.nodes is none hs.chain_next hs.chain_prev
          ?_ i j hmem hprev
        intro a ha
        simp at ha
      · rw [(hs.clean j hj hmem).2] at hprev
        simp at hprev

theorem collectFwd_none (ns : List Node) :
    ∀ m : Nat, collectFwd { nodes := ns, current := none } m = []
  | 0 => rfl
  | _ + 1 => rfl

theorem collectBwd_none (ns : List Node) :
    ∀ m : Nat, collectBwd { nodes := ns, current := none } m = []
  | 0 => rfl
  | _ + 1 => rfl

theorem collectFwd_cons (ns : List Node) (i : Nat) (k : Nat) :
    collectFwd { nodes := ns, current := some i } (k + 1)
      = (getNode ns i).value
        :: collectFwd { nodes := ns, current := (getNode ns i).next } k := rfl

theorem collectBwd_cons (ns : List Node) (i : Nat) (k : Nat) :
    collectBwd { nodes := ns, current := some i } (k + 1)
      = (getNode ns i).value
        :: collectBwd { nodes := ns, current := (getNode ns i).prev } k := rfl

theorem collectFwd_chain (ns : List Node) :
    ∀ (is : List Nat) (m : Nat), ChainNext ns is →
      collectFwd { nodes := ns, current := is.head? } (is.length + m)
        = chainValues ns is
  | [], m, _ => by
      rw [show ([] : List Nat).length + m = m from by simp]
      exact collectFwd_none ns m
  | a :: rest, m, hcn => by
      rw [show (a :: rest).length + m = rest.length + m + 1 from by
        simp only [List.length_cons]
        omega]
      rw [show ((a :: rest).head?) = some a from rfl, collectFwd_cons]
      cases rest with
      | nil =>
          rw [show (getNode ns a).next = none from hcn, collectFwd_none]
          rfl
      | cons c rest' =>
          rw [show (getNode ns a).next = some c from hcn.1]
          have ih := collectFwd_chain ns (c :: rest') m hcn.2
          rw [show ((c :: rest').head?) = some c from rfl] at ih
          rw [ih]
          rfl

theorem collectBwd_chain (ns : List Node) :
    ∀ (is : List Nat) (p : Option Nat) (m : Nat), is ≠ [] → ChainPrev ns p is →
      collectBwd { nodes := ns, current := is.getLast? } (is.length + m)
        = (chainValues ns is).reverse
          ++ collectBwd { nodes := ns, current := p } m
  | [], _, _, hne, _ => absurd rfl hne
  | [a], p, m, _, hcp => by
      rw [show ([a] : List Nat).length + m = m + 1 from by
        simp only [List.length_singleton]
        omega]
      rw [show (([a] : List Nat).getLast?) = some a from rfl, collectBwd_cons]
      rw [show (getNode ns a).prev = p from hcp.1]
      rfl
  | a :: b :: rest, p, m, _, hcp => by
      have ih := collectBwd_chain ns (b :: rest) (some a) (m + 1)
        (by simp) hcp.2
      rw [show (a :: b :: rest).length + m = (b :: rest).length + (m + 1) from
        by
          simp only [List.length_cons]
          omega]
      rw [show ((a :: b :: rest).getLast?) = ((b :: rest).getLast?) from rfl]
      rw [ih, collectBwd_cons]
      rw [show (getNode ns a).prev = p from hcp.1]
      rw [show chainValues ns (a :: b :: rest)
          = (getNode ns a).value :: chainValues ns (b :: rest) from rfl]
      rw [List.reverse_cons, List.append_assoc]
      rfl

theorem stepFwdN_spec (it : ListIteratorTracker) :
    ∀ k : Nat, (it.stepFwdN k).nodes = it.nodes ∧
      (it.stepFwdN k).current = walkNext it.nodes k it.current := by
  obtain ⟨ns, c⟩ := it
  intro k
  induction k generalizing c with
  | zero => exact ⟨rfl, rfl⟩
  | succ k ih =>
      have hstep : ((⟨ns, c⟩ : ListIteratorTracker).next).2
          = ⟨ns, nextStep ns c⟩ := by
        cases c <;> rfl
      show ((((⟨ns, c⟩ : ListIteratorTracker).next).2).stepFwdN k).nodes = ns ∧
        ((((⟨ns, c⟩ : ListIteratorTracker).next).2).stepFwdN k).current = _
      rw [hstep]
      exact ih (nextStep ns c)

theorem stepBwdN_spec (it : ListIteratorTracker) :
    ∀ k : Nat, (it.stepBwdN k).nodes = it.nodes ∧
      (it.stepBwdN k).current = walkPrev it.nodes k it.current := by
  obtain ⟨ns, c⟩ := it
  intro k
  induction k generalizing c with
  | zero => exact ⟨rfl, rfl⟩
  | succ k ih =>
      have hstep : ((⟨ns, c⟩ : ListIteratorTracker).next_back).2
          = ⟨ns, prevStep ns c⟩ := by
        cases c <;> rfl
      show ((((⟨ns, c⟩ : ListIteratorTracker).next_back).2).stepBwdN k).nodes
          = ns ∧
        ((((⟨ns, c⟩ : ListIteratorTracker).next_back).2).stepBwdN k).current
          = _
      rw [hstep]
      exact ih (prevStep ns c)

theorem TransactionLog.dropLoop_shape :
    ∀ (is : List Nat) (s : TransactionLog), s.Shape is → ∀ m : Nat,
      ∃ s', s.dropLoop (is.length + 1 + m) = .ok s' ∧ s'.Shape [] ∧
        s.popN is.length = .ok (chainValues s.nodes is, s')
  | [], s, h, m => by
      refine ⟨s, ?_, h, rfl⟩
      rw [show ([] : List Nat).length + 1 + m = m + 1 from by
        simp only [List.length_nil]
        omega]
      simp only [TransactionLog.dropLoop, TransactionLog.pop_nil_tl h]
  | i :: rest, s, h, m => by
      rcases TransactionLog.pop_cons_tl h with ⟨s₀, _, _, hpop, hs₀, _, _, hval⟩
      rcases TransactionLog.dropLoop_shape rest s₀ hs₀ m with
        ⟨s', hdrop, hsh, hpopn⟩
      refine ⟨s', ?_, hsh, ?_⟩
      · rw [show (i :: rest).length + 1 + m = (rest.length + 1 + m) + 1 from by
          simp only [List.length_cons]
          omega]
        simp only [TransactionLog.dropLoop, hpop]
        exact hdrop
      · show s.popN (rest.length + 1) = _
        rw [TransactionLog.popN, hpop]
        simp only [hpopn]
        rw [chainValues_congr s.nodes s₀.nodes rest hval]
        rfl

/-- C1: For every reachable state of `BetterTransactionLog` (produced by any
sequence of `append`/`pop` from the empty log), `pop` never takes the
`expect` panic branch, and whenever `pop` removes a non-empty head, after
the unlinking steps the removed node's structural reference count is zero —
its strong count is exactly one (the local binding) — so
`Rc::try_unwrap(..).expect(..)` always succeeds. -/
theorem c1_better_pop_refcount_one (s : BetterTransactionLog)
    (h : s.Reachable) :
    s.pop ≠ Except.error () ∧
    ∀ i s', s.popDetach = some (i, s') → refCount s' i = 0 := by
  rcases BetterTransactionLog.reachable_shape h with ⟨is, hs⟩
  cases is with
  | nil =>
      constructor
      · rw [BetterTransactionLog.pop_nil hs]
        simp
      · intro i s' hdet
        have hh : s.head = none := hs.head_eq
        simp [BetterTransactionLog.popDetach, hh] at hdet
  | cons i rest =>
      rcases BetterTransactionLog.pop_cons hs with
        ⟨s₀, hdet, hrc, hpop, _, _, _, _⟩
      constructor
      · rw [hpop]
        simp
      · intro i' s' hdet'
        rw [hdet] at hdet'
        simp only [Option.some_inj, Prod.mk.injEq] at hdet'
        rw [← hdet'.1, ← hdet'.2]
        exact hrc

/-- Witness for C1 at the concrete one-element log `append "a"`. -/
theorem c1_witness :
    (BetterTransactionLog.new_empty.append "a").pop ≠ Except.error () ∧
    ∀ i s', (BetterTransactionLog.new_empty.append "a").popDetach
        = some (i, s') → refCount s' i = 0 :=
  c1_better_pop_refcount_one _
    (BetterTransactionLog.Reachable.append _ "a"
      BetterTransactionLog.Reachable.empty)

/-- C2: After appending `v1..vn` to a fresh empty log, `k ≤ n` successive
pops return exactly `v1..vk` in order (each a `Some`), the length drops to
`n - k`, and after the last pop (`k = n`) both `head` and `tail` are
empty. -/
theorem c2_fifo_pop_order (vs : List String) (k : Nat) (hk : k ≤ vs.length) :
    ∃ s', (BetterTransactionLog.new_empty.appendAll vs).popN k
        = Except.ok (vs.take k, s') ∧
      s'.length = vs.length - k ∧
      (k = vs.length → s'.head = none ∧ s'.tail = none ∧ s'.length = 0) := by
  obtain ⟨is, hsh, hv⟩ := BetterTransactionLog.appendAll_shape vs
    BetterTransactionLog.new_empty [] BetterTransactionLog.new_empty_shape
  have hv' : chainValues (BetterTransactionLog.new_empty.appendAll vs).nodes
      is = vs := by simpa using hv
  have hislen : is.length = vs.length := by
    rw [← hv']
    simp [chainValues]
  obtain ⟨s', hrun, hsh', _⟩ := BetterTransactionLog.popN_shape k _ is hsh
    (by omega)
  refine ⟨s', ?_, ?_, ?_⟩
  · rw [hrun]
    have htake : chainValues
        (BetterTransactionLog.new_empty.appendAll vs).nodes (is.take k)
        = (chainValues
          (BetterTransactionLog.new_empty.appendAll vs).nodes is).take k := by
      simp [chainValues, List.map_take]
    rw [htake, hv']
  · rw [hsh'.len_eq, List.length_drop]
    omega
  · intro hke
    have hdrop : is.drop k = [] := List.drop_eq_nil_of_le (by omega)
    rw [hdrop] at hsh'
    exact ⟨hsh'.head_eq, hsh'.tail_eq, by simpa using hsh'.len_eq⟩

/-- Witness for C2 on the concrete sequence `["a", "b"]`, fully drained. -/
theorem c2_witness :
    ∃ s', (BetterTransactionLog.new_empty.appendAll ["a", "b"]).popN 2
        = Except.ok ((["a", "b"] : List String).take 2, s') ∧
      s'.length = (["a", "b"] : List String).length - 2 ∧
      (2 = (["a", "b"] : List String).length →
        s'.head = none ∧ s'.tail = none ∧ s'.length = 0) :=
  c2_fifo_pop_order ["a", "b"] 2 (by decide)

/-- C3: Every reachable state of the doubly linked log satisfies the
structural invariant: `length = 0` iff `head` and `tail` are both empty,
`length = 1` iff they name the same single node, for non-empty lists the
`next` walk from `head` reaches `tail` in exactly `length` nodes (and the
`prev` walk from `tail` reaches `head` likewise, both falling off the end
one step later), and adjacent `next`/`prev` references are reciprocal.
Holding for every reachable state is exactly holding for the empty log and
being preserved by every `append` and `pop`. -/
theorem c3_structural_invariant (s : BetterTransactionLog)
    (h : s.Reachable) : StructInv s := by
  rcases BetterTransactionLog.reachable_shape h with ⟨is, hs⟩
  exact structInv_of_shape hs

/-- Witness for C3 at the empty log. -/
theorem c3_witness : StructInv BetterTransactionLog.new_empty :=
  c3_structural_invariant _ BetterTransactionLog.Reachable.empty

/-- C4: `append` always succeeds (it is a total function in the model — the
source has no error path): on an empty list the fresh node becomes both
head and tail with empty links; otherwise the old tail's `next` is set to
the fresh node, the fresh node's `prev` to the old tail, head is untouched
and tail moves to the fresh node; `length` rises by exactly one; and after
appending `v1..vn` to an empty log, `head` holds `v1` and `tail` holds
`vn`. -/
theorem c4_append_effect (s : BetterTransactionLog) (v : String)
    (vs : List String) (h : s.Reachable) (hvs : vs ≠ []) :
    (s.append v).length = s.length + 1 ∧
    (s.tail = none →
      (s.append v).head = some s.nodes.length ∧
      (s.append v).tail = some s.nodes.length ∧
      (getNode (s.append v).nodes s.nodes.length).value = v ∧
      (getNode (s.append v).nodes s.nodes.length).next = none ∧
      (getNode (s.append v).nodes s.nodes.length).prev = none) ∧
    (∀ t, s.tail = some t →
      (s.append v).head = s.head ∧
      (s.append v).tail = some s.nodes.length ∧
      (getNode (s.append v).nodes s.nodes.length).value = v ∧
      (getNode (s.append v).nodes t).next = some s.nodes.length ∧
      (getNode (s.append v).nodes s.nodes.length).prev = some t) ∧
    (∃ hd tl,
      (BetterTransactionLog.new_empty.appendAll vs).head = some hd ∧
      (BetterTransactionLog.new_empty.appendAll vs).tail = some tl ∧
      some (getNode (BetterTransactionLog.new_empty.appendAll vs).nodes
        hd).value = vs.head? ∧
      some (getNode (BetterTransactionLog.new_empty.appendAll vs).nodes
        tl).value = vs.getLast?) := by
  rcases BetterTransactionLog.reachable_shape h with ⟨is, hs⟩
  refine ⟨?_, ?_, ?_, ?_⟩
  · cases htail : s.tail <;> simp [BetterTransactionLog.append, htail]
  · intro htail
    simp only [BetterTransactionLog.append, htail]
    refine ⟨by trivial, by trivial, ?_, ?_, ?_⟩ <;>
      · rw [getNode_concat_self]
        rfl
  · intro t htail
    have hlast : is.getLast? = some t := by
      rw [← hs.tail_eq]
      exact htail
    have htlt : t < s.nodes.length :=
      hs.bound t (List.mem_of_mem_getLast? hlast)
    simp only [BetterTransactionLog.append, htail]
    refine ⟨by trivial, by trivial, ?_, ?_, ?_⟩
    · rw [value_setPrev, value_setNext, getNode_concat_self]
      rfl
    · rw [next_setPrev, getNode_setNext_self _ _ _
        (by simp only [List.length_append, List.length_singleton]; omega)]
    · rw [getNode_setPrev_self _ _ _
        (by simp only [length_setNext, List.length_append,
          List.length_singleton]; omega)]
  · obtain ⟨is', hsh, hv⟩ := BetterTransactionLog.appendAll_shape vs
      BetterTransactionLog.new_empty [] BetterTransactionLog.new_empty_shape
    have hv' : chainValues (BetterTransactionLog.new_empty.appendAll vs).nodes
        is' = vs := by simpa using hv
    cases is' with
    | nil => exact absurd hv'.symm hvs
    | cons hd rest =>
        cases hlx : (hd :: rest).getLast? with
        | none => simp at hlx
        | some tl =>
            refine ⟨hd, tl, hsh.head_eq, by rw [hsh.tail_eq, hlx], ?_, ?_⟩
            · have h1 := congrArg List.head? hv'
              rw [← h1]
              rfl
            · have h2 := congrArg List.getLast? hv'
              rw [← h2, chainValues, List.getLast?_map, hlx]
              rfl

/-- Witness for C4 at a one-element log with a fresh value and the singleton
append sequence. -/
theorem c4_witness :
    ((BetterTransactionLog.new_empty.append "a").append "b").length
        = (BetterTransactionLog.new_empty.append "a").length + 1 ∧
    ((BetterTransactionLog.new_empty.append "a").tail = none →
      ((BetterTransactionLog.new_empty.append "a").append "b").head
          = some (BetterTransactionLog.new_empty.append "a").nodes.length ∧
      ((BetterTransactionLog.new_empty.append "a").append "b").tail
          = some (BetterTransactionLog.new_empty.append "a").nodes.length ∧
      (getNode ((BetterTransactionLog.new_empty.append "a").append "b").nodes
        (BetterTransactionLog.new_empty.append "a").nodes.length).value
          = "b" ∧
      (getNode ((BetterTransactionLog.new_empty.append "a").append "b").nodes
        (BetterTransactionLog.new_empty.append "a").nodes.length).next
          = none ∧
      (getNode ((BetterTransactionLog.new_empty.append "a").append "b").nodes
        (BetterTransactionLog.new_empty.append "a").nodes.length).prev
          = none) ∧
    (∀ t, (BetterTransactionLog.new_empty.append "a").tail = some t →
      ((BetterTransactionLog.new_empty.append "a").append "b").head
          = (BetterTransactionLog.new_empty.append "a").head ∧
      ((BetterTransactionLog.new_empty.append "a").append "b").tail
          = some (BetterTransactionLog.new_empty.append "a").nodes.length ∧
      (getNode ((BetterTransactionLog.new_empty.append "a").append "b").nodes
        (BetterTransactionLog.new_empty.append "a").nodes.length).value
          = "b" ∧
      (getNode ((BetterTransactionLog.new_empty.append "a").append "b").nodes
        t).next
          = some (BetterTransactionLog.new_empty.append "a").nodes.length ∧
      (getNode ((BetterTransactionLog.new_empty.append "a").append "b").nodes
        (BetterTransactionLog.new_empty.append "a").nodes.length).prev
          = some t) ∧
    (∃ hd tl,
      (BetterTransactionLog.new_empty.appendAll ["x"]).head = some hd ∧
      (BetterTransactionLog.new_empty.appendAll ["x"]).tail = some tl ∧
      some (getNode (BetterTransactionLog.new_empty.appendAll ["x"]).nodes
        hd).value = (["x"] : List String).head? ∧
      some (getNode (BetterTransactionLog.new_empty.appendAll ["x"]).nodes
        tl).value = (["x"] : List String).getLast?) :=
  c4_append_effect (BetterTransactionLog.new_empty.append "a") "b" ["x"]
    (BetterTransactionLog.Reachable.append _ "a"
      BetterTransactionLog.Reachable.empty) (by simp)

/-- C5: Popping a reachable doubly linked log of length at least 2 makes the
old head's successor the new head, clears the new head's `prev` (no
back-reference to the removed node remains — its reference count is 0), and
returns the old head's value. -/
theorem c5_pop_relinks_head (s : BetterTransactionLog)
    (h : s.Reachable) (hlen : 2 ≤ s.length) :
    ∃ i j s', s.head = some i ∧ (getNode s.nodes i).next = some j ∧
      s.pop = Except.ok (some (getNode s.nodes i).value, s') ∧
      s'.head = some j ∧ (getNode s'.nodes j).prev = none ∧
      refCount s' i = 0 := by
  rcases BetterTransactionLog.reachable_shape h with ⟨is, hs⟩
  have hl : 2 ≤ is.length := by
    rw [← hs.len_eq]
    exact hlen
  cases is with
  | nil => simp at hl
  | cons i rest =>
      cases rest with
      | nil => simp at hl
      | cons j rest' =>
          rcases BetterTransactionLog.pop_cons hs with
            ⟨s₀, hdet, hrc, hpop, hs₀, _, _, _⟩
          refine ⟨i, j, s₀, ?_, hs.chain_next.1, hpop, hs₀.head_eq, ?_,
            hrc⟩
          · rw [hs.head_eq]
            rfl
          · exact hs₀.chain_prev.1

/-- Witness for C5 at the concrete two-element log `append "a"; append
"b"`. -/
theorem c5_witness :
    ∃ i j s',
      ((BetterTransactionLog.new_empty.append "a").append "b").head
        = some i ∧
      (getNode ((BetterTransactionLog.new_empty.append "a").append
        "b").nodes i).next = some j ∧
      ((BetterTransactionLog.new_empty.append "a").append "b").pop
        = Except.ok (some (getNode ((BetterTransactionLog.new_empty.append
          "a").append "b").nodes i).value, s') ∧
      s'.head = some j ∧ (getNode s'.nodes j).prev = none ∧
      refCount s' i = 0 :=
  c5_pop_relinks_head ((BetterTransactionLog.new_empty.append "a").append
    "b")
    (BetterTransactionLog.Reachable.append _ "b"
      (BetterTransactionLog.Reachable.append _ "a"
        BetterTransactionLog.Reachable.empty)) (by decide)

/-- C7: `pop` on a reachable log with empty head returns the explicit empty
result `none` (not a panic) and leaves the state unchanged; on such a state
`length` is 0 and `tail` is empty too. -/
theorem c7_pop_empty_noop (s : BetterTransactionLog) (h : s.Reachable)
    (hh : s.head = none) :
    s.pop = Except.ok (none, s) ∧ s.length = 0 ∧ s.tail = none := by
  rcases BetterTransactionLog.reachable_shape h with ⟨is, hs⟩
  have hnil : is = [] := List.head?_eq_none_iff.mp (by
    rw [← hs.head_eq]
    exact hh)
  subst hnil
  exact ⟨BetterTransactionLog.pop_nil hs, hs.len_eq, hs.tail_eq⟩

/-- Witness for C7 at the fresh empty log. -/
theorem c7_witness :
    BetterTransactionLog.new_empty.pop
        = Except.ok (none, BetterTransactionLog.new_empty) ∧
    BetterTransactionLog.new_empty.length = 0 ∧
    BetterTransactionLog.new_empty.tail = none :=
  c7_pop_empty_noop _ BetterTransactionLog.Reachable.empty rfl

/-- C10 (counterexample to the claim as stated): there is NO sequence of
`append`/`pop` operations on the singly linked `TransactionLog` that makes
`pop`'s `Rc::try_unwrap(..).expect(..)` fail — the claim that such a
sequence exists is false. -/
theorem c10_counterexample :
    ¬ ∃ s : TransactionLog, s.Reachable ∧ s.pop = Except.error () := by
  rintro ⟨s, hreach, herr⟩
  rcases TransactionLog.reachable_shape_tl hreach with ⟨is, hs⟩
  cases is with
  | nil =>
      rw [TransactionLog.pop_nil_tl hs] at herr
      simp at herr
  | cons i rest =>
      rcases TransactionLog.pop_cons_tl hs with ⟨s₀, _, _, hpop, _, _, _, _⟩
      rw [hpop] at herr
      simp at herr

/-- C10 (amended): the singly linked `TransactionLog` is also free of the
reclaim defect — on every reachable state its `pop` never panics and a
detached head always has structural reference count zero (this variant
never creates `prev` references, so clearing them is not needed). -/
theorem c10_single_linked_pop_never_fails (s : TransactionLog)
    (h : s.Reachable) :
    s.pop ≠ Except.error () ∧
    ∀ i s', s.popDetach = some (i, s') → refCountTL s' i = 0 := by
  rcases TransactionLog.reachable_shape_tl h with ⟨is, hs⟩
  cases is with
  | nil =>
      constructor
      · rw [TransactionLog.pop_nil_tl hs]
        simp
      · intro i s' hdet
        have hh : s.head = none := hs.head_eq
        simp [TransactionLog.popDetach, hh] at hdet
  | cons i rest =>
      rcases TransactionLog.pop_cons_tl hs with ⟨s₀, hdet, hrc, hpop, _, _, _, _⟩
      constructor
      · rw [hpop]
        simp
      · intro i' s' hdet'
        rw [hdet] at hdet'
        simp only [Option.some_inj, Prod.mk.injEq] at hdet'
        rw [← hdet'.1, ← hdet'.2]
        exact hrc

/-- Witness for the amended C10 at the concrete one-element singly linked
log. -/
theorem c10_witness :
    (TransactionLog.new_empty.append "a").pop ≠ Except.error () ∧
    ∀ i s', (TransactionLog.new_empty.append "a").popDetach
        = some (i, s') → refCountTL s' i = 0 :=
  c10_single_linked_pop_never_fails _
    (TransactionLog.Reachable.append _ "a" TransactionLog.Reachable.empty)

/-- C6: For a log built by appending `vs`, forward iteration from `head`
(repeated `Iterator::next`) yields exactly `vs`, backward iteration from
`tail` (repeated `DoubleEndedIterator::next_back`) yields exactly
`vs.reverse`; both runs are finite — any fuel of at least `length` steps
collects the same values — and after `length` steps the cursor is empty in
both directions. -/
theorem c6_bidirectional_iteration (vs : List String) (m : Nat) :
    collectFwd (BetterTransactionLog.new_empty.appendAll vs).intoIter
        ((BetterTransactionLog.new_empty.appendAll vs).length + m) = vs ∧
    collectBwd (ListIteratorTracker.new
        (BetterTransactionLog.new_empty.appendAll vs).nodes
        (BetterTransactionLog.new_empty.appendAll vs).tail)
        ((BetterTransactionLog.new_empty.appendAll vs).length + m)
      = vs.reverse ∧
    ((BetterTransactionLog.new_empty.appendAll vs).intoIter.stepFwdN
        (BetterTransactionLog.new_empty.appendAll vs).length).current
      = none ∧
    ((ListIteratorTracker.new
        (BetterTransactionLog.new_empty.appendAll vs).nodes
        (BetterTransactionLog.new_empty.appendAll vs).tail).stepBwdN
        (BetterTransactionLog.new_empty.appendAll vs).length).current
      = none := by
  obtain ⟨is, hsh, hv⟩ := BetterTransactionLog.appendAll_shape vs
    BetterTransactionLog.new_empty [] BetterTransactionLog.new_empty_shape
  have hv' : chainValues (BetterTransactionLog.new_empty.appendAll vs).nodes
      is = vs := by simpa using hv
  have hlen : (BetterTransactionLog.new_empty.appendAll vs).length
      = is.length := hsh.len_eq
  refine ⟨?_, ?_, ?_, ?_⟩
  · show collectFwd
      { nodes := (BetterTransactionLog.new_empty.appendAll vs).nodes,
        current := (BetterTransactionLog.new_empty.appendAll vs).head } _ = vs
    rw [hsh.head_eq, hlen]
    exact (collectFwd_chain _ is m hsh.chain_next).trans hv'
  · show collectBwd
      { nodes := (BetterTransactionLog.new_empty.appendAll vs).nodes,
        current := (BetterTransactionLog.new_empty.appendAll vs).tail } _
      = vs.reverse
    cases is with
    | nil =>
        have hvs : vs = [] := hv'.symm
        subst hvs
        have htl : (BetterTransactionLog.new_empty.appendAll []).tail
            = none := hsh.tail_eq
        rw [htl, collectBwd_none]
        rfl
    | cons a rest =>
        rw [hsh.tail_eq, hlen,
          collectBwd_chain _ (a :: rest) none m (by simp) hsh.chain_prev,
          collectBwd_none, List.append_nil, hv']
  · rw [(stepFwdN_spec _ _).2]
    show walkNext (BetterTransactionLog.new_empty.appendAll vs).nodes
      (BetterTransactionLog.new_empty.appendAll vs).length
      (BetterTransactionLog.new_empty.appendAll vs).head = none
    rw [hsh.head_eq, hlen]
    exact walkNext_exhaust _ is hsh.chain_next
  · rw [(stepBwdN_spec _ _).2]
    show walkPrev (BetterTransactionLog.new_empty.appendAll vs).nodes
      (BetterTransactionLog.new_empty.appendAll vs).length
      (BetterTransactionLog.new_empty.appendAll vs).tail = none
    rw [hsh.tail_eq, hlen]
    cases is with
    | nil => rfl
    | cons a rest =>
        exact (walkPrev_chain _ (a :: rest) none hsh.chain_prev).2 (by simp)

/-- C8: Iteration steps only read the shared heap: a `next` or `next_back`
step returns the clone of the current node's value and advances the cursor
by the clone of its `next`/`prev` link, while the heap of nodes — every
value and every link — is returned unchanged, after any number of steps in
either direction; hence re-running an iteration over the same heap after
stepping yields identical results. -/
theorem c8_iteration_reads_only (it : ListIteratorTracker) (k fuel : Nat) :
    (it.next).2.nodes = it.nodes ∧
    (it.next).1 = it.current.map (fun i => (getNode it.nodes i).value) ∧
    (it.next).2.current = nextStep it.nodes it.current ∧
    (it.next_back).2.nodes = it.nodes ∧
    (it.next_back).1 = it.current.map (fun i => (getNode it.nodes i).value) ∧
    (it.next_back).2.current = prevStep it.nodes it.current ∧
    (it.stepFwdN k).nodes = it.nodes ∧
    (it.stepBwdN k).nodes = it.nodes ∧
    collectFwd { nodes := (it.stepFwdN k).nodes, current := it.current } fuel
      = collectFwd it fuel ∧
    collectBwd { nodes := (it.stepBwdN k).nodes, current := it.current } fuel
      = collectBwd it fuel := by
  obtain ⟨ns, c⟩ := it
  have h1 := stepFwdN_spec ⟨ns, c⟩ k
  have h2 := stepBwdN_spec ⟨ns, c⟩ k
  refine ⟨?_, ?_, ?_, ?_, ?_, ?_, h1.1, h2.1, ?_, ?_⟩
  · cases c <;> rfl
  · cases c <;> rfl
  · cases c <;> rfl
  · cases c <;> rfl
  · cases c <;> rfl
  · cases c <;> rfl
  · rw [h1.1]
  · rw [h2.1]

/-- C9: The `Drop` of `TransactionLog` is the loop `while pop().is_some()`;
on every reachable log it terminates — after exactly `length` pops every
value has been drained and the log is empty (`head`/`tail` empty, length
0), the next `pop` returns `none` so the loop exits, and any fuel of at
least `length + 1` iterations completes the loop with that same empty
state. -/
theorem c9_drop_pop_until_empty (s : TransactionLog) (h : s.Reachable) :
    ∃ vs s', s.popN s.length = Except.ok (vs, s') ∧ vs.length = s.length ∧
      s'.head = none ∧ s'.tail = none ∧ s'.length = 0 ∧
      s'.pop = Except.ok (none, s') ∧
      ∀ m, s.dropLoop (s.length + 1 + m) = Except.ok s' := by
  rcases TransactionLog.reachable_shape_tl h with ⟨is, hs⟩
  have hlen := hs.len_eq
  obtain ⟨s', hdrop0, hsh, hpopn⟩ := TransactionLog.dropLoop_shape is s hs 0
  refine ⟨chainValues s.nodes is, s', ?_, ?_, hsh.head_eq, hsh.tail_eq,
    hsh.len_eq, TransactionLog.pop_nil_tl hsh, ?_⟩
  · rw [hlen]
    exact hpopn
  · rw [hlen]
    simp [chainValues]
  · intro m
    obtain ⟨s'', hdropm, _, hpopn'⟩ := TransactionLog.dropLoop_shape is s hs m
    have heq : s'' = s' := by
      rw [hpopn] at hpopn'
      simp only [Except.ok.injEq, Prod.mk.injEq] at hpopn'
      exact hpopn'.2.symm
    rw [hlen, hdropm, heq]

/-- Witness for C9 at the concrete one-element singly linked log. -/
theorem c9_witness :
    ∃ vs s', (TransactionLog.new_empty.append "a").popN
        (TransactionLog.new_empty.append "a").length
        = Except.ok (vs, s') ∧
      vs.length = (TransactionLog.new_empty.append "a").length ∧
      s'.head = none ∧ s'.tail = none ∧ s'.length = 0 ∧
      s'.pop = Except.ok (none, s') ∧
      ∀ m, (TransactionLog.new_empty.append "a").dropLoop
        ((TransactionLog.new_empty.append "a").length + 1 + m)
        = Except.ok s' :=
  c9_drop_pop_until_empty _
    (TransactionLog.Reachable.append _ "a" TransactionLog.Reachable.empty)

end Lists
